import Mathlib

/-!
Verification of the prefix-trie engine: formal embedding of the arena, the
traversal and insertion state machines, the depth-first iterators and the
trie views, together with proofs of the specification's claims.

Keys are modelled as bit strings (`List Bool`), the canonical instance of the
bit-string key capability the library is generic over.  Arena code is
translated from `src/inner.rs`, `src/entry.rs`, `src/map/iter.rs` and
`src/trieview/mod.rs`; loops become fuel-indexed recursion where running out
of fuel (or hitting an out-of-range arena index, which the code treats as a
fatal error) is `none`.
-/

/-- Bit-string keys: the concrete model of the key capability. -/
abbrev Pfx := List Bool

/-- Modelled from the spec: the identity key containing every other key
(`Prefix::zero`, the root sentinel value). -/
def pZero : Pfx := []

/-- Modelled from the spec: containment test `a.contains(b)` means `b` lies
within the bit-range denoted by `a`, i.e. `a` is a prefix of the bit string
`b`; it is reflexive. -/
def pContains (a b : Pfx) : Bool := a.isPrefixOf b

/-- Modelled from the spec: `longest_common_prefix(a, b)`, the most specific
key containing both `a` and `b`. -/
def lcp : Pfx → Pfx → Pfx
  | a :: as, b :: bs => if a = b then a :: lcp as bs else []
  | _, _ => []

/-- Modelled from the spec: `to_right(a, b)` decides, at branch point `a`,
whether `b` falls on the bit-value-1 (right) side: it reads the bit of `b`
just past the end of `a`. -/
def toRight (a b : Pfx) : Bool := b.getD a.length false

/-- Strict lexicographic order on bit strings: a proper prefix comes first,
and otherwise the first differing bit decides (`false` before `true`).  This
is the ascending order the iterators are claimed to produce. -/
def pfxLt : Pfx → Pfx → Bool
  | [], [] => false
  | [], _ :: _ => true
  | _ :: _, [] => false
  | a :: as, b :: bs => if a = b then pfxLt as bs else (!a && b)

theorem pContains_iff {a b : Pfx} : pContains a b = true ↔ a <+: b := by
  simp [pContains, List.isPrefixOf_iff_prefix]

theorem pContains_refl (a : Pfx) : pContains a a = true := by
  simp [pContains_iff]

theorem pContains_trans {a b c : Pfx} (h1 : pContains a b = true)
    (h2 : pContains b c = true) : pContains a c = true := by
  rw [pContains_iff] at *
  exact h1.trans h2

/-- A proper prefix decomposes as the prefix followed by at least one bit. -/
theorem proper_prefix_decomp {p k : Pfx} (h : p <+: k) (hne : p ≠ k) :
    ∃ c cs, k = p ++ c :: cs := by
  obtain ⟨t, rfl⟩ := h
  cases t with
  | nil => simp at hne
  | cons c cs => exact ⟨c, cs, rfl⟩

theorem toRight_append (p : Pfx) (c : Bool) (cs : Pfx) :
    toRight p (p ++ c :: cs) = c := by
  induction p with
  | nil => rfl
  | cons a as ih => simpa [toRight, List.getD] using ih

theorem pfxLt_append (p : Pfx) (c : Bool) (cs : Pfx) :
    pfxLt p (p ++ c :: cs) = true := by
  induction p with
  | nil => rfl
  | cons a as ih => simp [pfxLt, ih]

theorem pfxLt_diverge (p : Pfx) (xs ys : Pfx) :
    pfxLt (p ++ false :: xs) (p ++ true :: ys) = true := by
  induction p with
  | nil => rfl
  | cons a as ih => simp [pfxLt, ih]

/-- Two prefixes of the same bit string are comparable. -/
theorem prefix_comparable {a b q : Pfx} (ha : a <+: q) (hb : b <+: q) :
    a <+: b ∨ b <+: a :=
  (List.prefix_or_prefix_of_prefix ha hb).imp id id

theorem pfxLt_irrefl (a : Pfx) : pfxLt a a = false := by
  induction a with
  | nil => rfl
  | cons x xs ih => simpa [pfxLt] using ih

theorem pfxLt_append_left_false (b : Pfx) (c : Bool) (cs : Pfx) :
    pfxLt (b ++ c :: cs) b = false := by
  induction b with
  | nil => cases c <;> rfl
  | cons x xs ih => simpa [pfxLt] using ih

/-- Among prefixes of a common bit string, lexicographic order coincides with
proper-prefix order. -/
theorem pfxLt_prefix_of_common {a b q : Pfx} (ha : a <+: q) (hb : b <+: q)
    (hlt : pfxLt a b = true) : a <+: b ∧ a ≠ b := by
  rcases prefix_comparable ha hb with h | h
  · refine ⟨h, ?_⟩
    rintro rfl
    simp [pfxLt_irrefl] at hlt
  · by_cases hab : b = a
    · subst hab
      simp [pfxLt_irrefl] at hlt
    · obtain ⟨c, cs, rfl⟩ := proper_prefix_decomp h (by exact hab)
      simp [pfxLt_append_left_false] at hlt

theorem lcp_prefix_left (a b : Pfx) : lcp a b <+: a := by
  induction a generalizing b with
  | nil => cases b <;> simp [lcp]
  | cons x xs ih =>
    cases b with
    | nil => simp [lcp]
    | cons y ys =>
      by_cases h : x = y
      · subst h
        simpa [lcp, List.cons_prefix_cons] using ih ys
      · simp [lcp, h]

theorem lcp_prefix_right (a b : Pfx) : lcp a b <+: b := by
  induction a generalizing b with
  | nil => cases b <;> simp [lcp]
  | cons x xs ih =>
    cases b with
    | nil => simp [lcp]
    | cons y ys =>
      by_cases h : x = y
      · subst h
        simpa [lcp, List.cons_prefix_cons] using ih ys
      · simp [lcp, h]

theorem lcp_common {c a b : Pfx} (ha : c <+: a) (hb : c <+: b) :
    c <+: lcp a b := by
  induction c generalizing a b with
  | nil => simp
  | cons x xs ih =>
    obtain ⟨ta, rfl⟩ := ha
    obtain ⟨tb, rfl⟩ := hb
    simpa [lcp] using ih (List.prefix_append xs ta) (List.prefix_append xs tb)

/-- If the longest common prefix equals neither argument, the two arguments
diverge immediately after it, so `toRight` sends them to opposite sides. -/
theorem lcp_diverge {a b : Pfx} (hna : lcp a b ≠ a) (hnb : lcp a b ≠ b) :
    toRight (lcp a b) a = !toRight (lcp a b) b := by
  induction a generalizing b with
  | nil => simp [lcp] at hna
  | cons x xs ih =>
    cases b with
    | nil => simp [lcp] at hnb
    | cons y ys =>
      by_cases h : x = y
      · subst h
        have hna' : lcp xs ys ≠ xs := fun he => hna (by simp [lcp, he])
        have hnb' : lcp xs ys ≠ ys := fun he => hnb (by simp [lcp, he])
        have hrec := ih hna' hnb'
        simpa [lcp, toRight, List.getD] using hrec
      · cases x <;> cases y <;> simp_all [lcp, toRight, List.getD]

/-- A trie node, from `src/inner.rs`: a key, an optional stored value, and
optional arena indices of the left and right children. -/
structure Node (T : Type) where
  pfx : Pfx
  value : Option T
  left : Option Nat
  right : Option Nat
deriving DecidableEq, Repr

/-- The arena (`Table` in `src/inner.rs`): a growable sequence of nodes
addressed by index; index 0 is the root sentinel. -/
abbrev Table (T : Type) := List (Node T)

/-- The arena a fresh map holds (`Table::default` in `src/inner.rs`): a
single valueless root node with the zero key. -/
def emptyTable (T : Type) : Table T := [⟨pZero, none, none, none⟩]

/-- Traversal outcome of `Table::get_direction` (`src/inner.rs`). -/
inductive Direction where
  | Reached : Direction
  | Enter : Nat → Bool → Direction
  | Missing : Direction
deriving DecidableEq, Repr

/-- Traversal outcome of `Table::get_direction_for_insert`
(`src/inner.rs`); `NewBranch` carries the branching key, the side under the
current node, and the side the new node takes under the branching node. -/
inductive DirectionForInsert where
  | Reached : DirectionForInsert
  | Enter : Nat → Bool → DirectionForInsert
  | NewLeaf : Bool → DirectionForInsert
  | NewChild : Bool → Bool → DirectionForInsert
  | NewBranch : Pfx → Bool → Bool → DirectionForInsert
deriving DecidableEq, Repr

/-- The child link of a node on the given side (body of
`Table::get_child`). -/
def childLink {T : Type} (n : Node T) (right : Bool) : Option Nat :=
  if right then n.right else n.left

/-- `Table::get_child` from `src/inner.rs`; `none` is the out-of-range
panic, `some l` the link (which may itself be empty). -/
def get_child {T : Type} (t : Table T) (idx : Nat) (right : Bool) :
    Option (Option Nat) :=
  (t[idx]?).map fun n => childLink n right

/-- `Table::set_child` from `src/inner.rs`: replace a child link, returning
the updated arena and the old link; `none` is the out-of-range panic. -/
def set_child {T : Type} (t : Table T) (idx child : Nat) (right : Bool) :
    Option (Table T × Option Nat) :=
  (t[idx]?).map fun n =>
    if right then (t.set idx { n with right := some child }, n.right)
    else (t.set idx { n with left := some child }, n.left)

/-- `Table::get_direction` from `src/inner.rs`. -/
def get_direction {T : Type} (t : Table T) (cur : Nat) (p : Pfx) :
    Option Direction := do
  let n ← t[cur]?
  if n.pfx = p then
    return .Reached
  else
    let right := toRight n.pfx p
    match childLink n right with
    | some child => do
        let cn ← t[child]?
        if pContains cn.pfx p then return .Enter child right
        else return .Missing
    | none => return .Missing

/-- `Table::get_direction_for_insert` from `src/inner.rs`. -/
def get_direction_for_insert {T : Type} (t : Table T) (cur : Nat) (p : Pfx) :
    Option DirectionForInsert := do
  let n ← t[cur]?
  if n.pfx = p then
    return .Reached
  else
    let right := toRight n.pfx p
    match childLink n right with
    | some child => do
        let cn ← t[child]?
        if pContains cn.pfx p then
          return .Enter child right
        else if pContains p cn.pfx then
          return .NewChild right (toRight p cn.pfx)
        else
          let branchPfx := lcp p cn.pfx
          return .NewBranch branchPfx right (toRight branchPfx p)
    | none => return .NewLeaf right

/-- Insertion consuming a recorded direction: `VacantEntry::insert` from
`src/entry.rs` merged with the `Occupied` arm of `Entry::insert` (both set
the value at a `Reached` node and report the old value).  `new_node` is
modelled from the spec as append-only allocation at the back of the arena.
Returns the updated arena and the previous value; `none` is a panic
(`unwrap` of a missing child, an out-of-range index, or the unreachable
`Enter` arm). -/
def entry_insert {T : Type} (t : Table T) (p : Pfx) (idx : Nat)
    (dir : DirectionForInsert) (v : T) : Option (Table T × Option T) :=
  match dir with
  | .Reached =>
      (t[idx]?).map fun n => (t.set idx { n with value := some v }, n.value)
  | .NewLeaf right =>
      let newIdx := t.length
      let t1 := t ++ [⟨p, some v, none, none⟩]
      (set_child t1 idx newIdx right).map fun r => (r.1, none)
  | .NewChild right childRight => do
      let newIdx := t.length
      let t1 := t ++ [⟨p, some v, none, none⟩]
      let r1 ← set_child t1 idx newIdx right
      let child ← r1.2
      let r2 ← set_child r1.1 newIdx child childRight
      return (r2.1, none)
  | .NewBranch branchPfx right prefixRight => do
      let branchIdx := t.length
      let t1 := t ++ [⟨branchPfx, none, none, none⟩]
      let newIdx := t1.length
      let t2 := t1 ++ [⟨p, some v, none, none⟩]
      let r1 ← set_child t2 idx branchIdx right
      let child ← r1.2
      let r2 ← set_child r1.1 branchIdx newIdx prefixRight
      let r3 ← set_child r2.1 branchIdx child (!prefixRight)
      return (r3.1, none)
  | .Enter _ _ => none

/-- Modelled from the spec: the descent `PrefixMap::entry` performs, walking
from a node with `get_direction_for_insert` and following `Enter` until a
terminal direction is recorded.  Fuel-indexed; `none` means the fuel ran
out. -/
def findInsertIdx {T : Type} (t : Table T) (p : Pfx) :
    Nat → Nat → Option (Nat × DirectionForInsert)
  | 0, _ => none
  | fuel + 1, idx => do
      match ← get_direction_for_insert t idx p with
      | .Enter next _ => findInsertIdx t p fuel next
      | d => return (idx, d)

/-- Modelled from the spec: `PrefixMap::insert` locates the insertion point
once and then grafts, returning the previous value if the key already
existed.  The descent fuel `p.length + 1` is enough whenever the arena is
well formed, because each `Enter` step strictly lengthens the current key
while staying a prefix of `p`. -/
def insertTable {T : Type} (t : Table T) (p : Pfx) (v : T) :
    Option (Table T × Option T) := do
  let r ← findInsertIdx t p (p.length + 1) 0
  entry_insert t p r.1 r.2 v

/-- Arena states produced by the public construction API: the fresh map,
followed by any sequence of successful insertions. -/
inductive Reachable {T : Type} : Table T → Prop where
  | empty : Reachable (emptyTable T)
  | step {t : Table T} {p : Pfx} {v : T} {t' : Table T} {old : Option T} :
      Reachable t → insertTable t p v = some (t', old) → Reachable t'

/-- The explicit-stack depth-first iterator `Iter::next` from
`src/map/iter.rs`, run to completion: pop an index, push the right child
then the left child, and yield the entry when the popped node holds a
value.  Fuel-indexed; `none` is fuel exhaustion or an out-of-range index. -/
def iterAux {T : Type} (t : Table T) : Nat → List Nat → Option (List (Pfx × T))
  | _, [] => some []
  | 0, _ :: _ => none
  | fuel + 1, cur :: rest => do
      let n ← t[cur]?
      let stack :=
        (match n.left with | some l => [l] | none => []) ++
        (match n.right with | some r => [r] | none => []) ++ rest
      let res ← iterAux t fuel stack
      match n.value with
      | some v => return (n.pfx, v) :: res
      | none => return res

/-- The mutable-reference iterator `IterMut::next` from `src/map/iter.rs`,
run to completion.  It reads the same fields in the same order as `Iter`
(the node is checked with `value.is_some` and then yielded); as a value
sequence it is a separate translation of that loop. -/
def iterMutAux {T : Type} (t : Table T) : Nat → List Nat → Option (List (Pfx × T))
  | _, [] => some []
  | 0, _ :: _ => none
  | fuel + 1, cur :: rest => do
      let n ← t[cur]?
      let stack :=
        (match n.left with | some l => [l] | none => []) ++
        (match n.right with | some r => [r] | none => []) ++ rest
      if h : n.value.isSome then do
        let res ← iterMutAux t fuel stack
        return (n.pfx, n.value.get h) :: res
      else
        iterMutAux t fuel stack

/-- The consuming iterator `IntoIter::next` from `src/map/iter.rs`, run to
completion: it owns the arena, takes the value out of each popped node, and
replaces the yielded node's key by the zero key. -/
def intoIterAux {T : Type} : Table T → Nat → List Nat → Option (List (Pfx × T))
  | _, _, [] => some []
  | _, 0, _ :: _ => none
  | t, fuel + 1, cur :: rest => do
      let n ← t[cur]?
      let stack :=
        (match n.left with | some l => [l] | none => []) ++
        (match n.right with | some r => [r] | none => []) ++ rest
      match n.value with
      | some v =>
          let t' := t.set cur { n with value := none, pfx := pZero }
          let res ← intoIterAux t' fuel stack
          return (n.pfx, v) :: res
      | none => intoIterAux t fuel stack

/-- The seed computation `lpm_children_iter_start` from `src/map/iter.rs`:
descend towards `p`, returning the stack the children iterator starts
from.  Fuel-indexed translation of its loop. -/
def childrenStart {T : Type} (t : Table T) (p : Pfx) :
    Nat → Nat → Option (List Nat)
  | 0, _ => none
  | fuel + 1, idx => do
      let n ← t[idx]?
      if n.pfx = p then
        return [idx]
      else
        let right := toRight n.pfx p
        match childLink n right with
        | some c => do
            let cn ← t[c]?
            if pContains cn.pfx p then childrenStart t p fuel c
            else if pContains p cn.pfx then return [c]
            else return []
        | none => return []

/-- The walk inside `Cover::next` from `src/map/iter.rs`, aggregated over
all calls after the root check: follow `get_direction` from `idx` towards
`p`, collecting every entered node that holds a value, and stop at
`Missing` or `Reached`. -/
def coverFrom {T : Type} (t : Table T) (p : Pfx) :
    Nat → Nat → Option (List (Pfx × T))
  | 0, _ => none
  | fuel + 1, idx => do
      match ← get_direction t idx p with
      | .Enter next _ => do
          let n ← t[next]?
          let rest ← coverFrom t p fuel next
          match n.value with
          | some v => return (n.pfx, v) :: rest
          | none => return rest
      | _ => return []

/-- The full output of the `cover(p)` iterator (`PrefixMap::cover`,
`Cover::next` in `src/map/iter.rs`): the root's entry first when the root
holds a value, then the walk from the root. -/
def coverList {T : Type} (t : Table T) (p : Pfx) (fuel : Nat) :
    Option (List (Pfx × T)) := do
  let n ← t[0]?
  let rest ← coverFrom t p fuel 0
  match n.value with
  | some v => return (n.pfx, v) :: rest
  | none => return rest

/-- A view location from `src/trieview/mod.rs`: a real arena node, or a
virtual branching point above the single existing child `i`. -/
inductive ViewLoc where
  | node : Nat → ViewLoc
  | virt : Pfx → Nat → ViewLoc
deriving DecidableEq, Repr

/-- `ViewLoc::idx` from `src/trieview/mod.rs`. -/
def ViewLoc.idx : ViewLoc → Nat
  | .node i => i
  | .virt _ i => i

/-- `TrieView::find` / `TrieViewMut::find` from `src/trieview/mod.rs`:
descend with `get_direction_for_insert`; `Reached` yields a node view,
`NewChild` a virtual view above the existing child, and
`NewLeaf`/`NewBranch` mean the prefix is absent (`some none`).  The outer
`none` is fuel exhaustion or a panic. -/
def viewFind {T : Type} (t : Table T) (p : Pfx) :
    Nat → Nat → Option (Option ViewLoc)
  | 0, _ => none
  | fuel + 1, idx => do
      match ← get_direction_for_insert t idx p with
      | .Enter next _ => viewFind t p fuel next
      | .Reached => return some (.node idx)
      | .NewChild right _ => do
          let link ← get_child t idx right
          let c ← link
          return some (.virt p c)
      | .NewLeaf _ => return none
      | .NewBranch _ _ _ => return none

/-- `TrieView::find_exact` from `src/trieview/mod.rs`: descend with
`get_direction`; only a value-bearing exact node is returned. -/
def viewFindExact {T : Type} (t : Table T) (p : Pfx) :
    Nat → Nat → Option (Option Nat)
  | 0, _ => none
  | fuel + 1, idx => do
      match ← get_direction t idx p with
      | .Reached => do
          let n ← t[idx]?
          return (if n.value.isSome then some idx else none)
      | .Enter next _ => viewFindExact t p fuel next
      | .Missing => return none

/-- `TrieView::find_lpm` from `src/trieview/mod.rs`: descend with
`get_direction`, remembering the deepest value-bearing node seen, and
return it when the walk stops. -/
def findLpm {T : Type} (t : Table T) (p : Pfx) :
    Nat → Nat → Option Nat → Option (Option Nat)
  | 0, _, _ => none
  | fuel + 1, idx, best => do
      let n ← t[idx]?
      let best' := if n.value.isSome then some idx else best
      match ← get_direction t idx p with
      | .Enter next _ => findLpm t p fuel next best'
      | _ => return best'

/-- `TrieView::value` from `src/trieview/mod.rs`: virtual locations hold no
value. -/
def viewValue {T : Type} (t : Table T) : ViewLoc → Option (Option T)
  | .node i => (t[i]?).map (·.value)
  | .virt _ _ => some none

/-- `TrieView::prefix_value` from `src/trieview/mod.rs`. -/
def viewPrefixValue {T : Type} (t : Table T) : ViewLoc → Option (Option (Pfx × T))
  | .node i => (t[i]?).map fun n => n.value.map fun v => (n.pfx, v)
  | .virt _ _ => some none

/-- `TrieViewMut::node_mut` followed by `value.as_mut`
(`TrieViewMut::value_mut` in `src/trieview/mod.rs`): whether a mutable
reference to a value is produced; a virtual location never produces one. -/
def viewValueMut {T : Type} (t : Table T) : ViewLoc → Option (Option T)
  | .node i => (t[i]?).map (·.value)
  | .virt _ _ => some none

/-- `TrieViewMut::prefix_value_mut` from `src/trieview/mod.rs`. -/
def viewPrefixValueMut {T : Type} (t : Table T) : ViewLoc → Option (Option (Pfx × T))
  | .node i => (t[i]?).map fun n => n.value.map fun v => (n.pfx, v)
  | .virt _ _ => some none

/-- `TrieViewMut::remove` from `src/trieview/mod.rs`: take the value at a
node location; at a virtual location `node_mut` is `None`, so nothing is
returned and the arena is untouched. -/
def viewRemove {T : Type} (t : Table T) : ViewLoc → Option (Option T × Table T)
  | .node i => (t[i]?).map fun n =>
      (n.value, t.set i { n with value := none })
  | .virt _ _ => some (none, t)

/-- `TrieView::left` / `TrieViewMut::left` from `src/trieview/mod.rs`: at a
virtual location the single real child is exposed only when it lies on the
left of the virtual key. -/
def viewLeft {T : Type} (t : Table T) : ViewLoc → Option (Option ViewLoc)
  | .node i => (t[i]?).map fun n => n.left.map .node
  | .virt p i => (t[i]?).map fun n =>
      if !toRight p n.pfx then some (.node i) else none

/-- `TrieView::right` / `TrieViewMut::right` from `src/trieview/mod.rs`. -/
def viewRight {T : Type} (t : Table T) : ViewLoc → Option (Option ViewLoc)
  | .node i => (t[i]?).map fun n => n.right.map .node
  | .virt p i => (t[i]?).map fun n =>
      if toRight p n.pfx then some (.node i) else none

/-- `TrieViewMut::split` from `src/trieview/mod.rs`: both children at once;
a virtual location puts its single child on the side `to_right` dictates. -/
def viewSplit {T : Type} (t : Table T) : ViewLoc → Option (Option ViewLoc × Option ViewLoc)
  | .node i => (t[i]?).map fun n => (n.left.map .node, n.right.map .node)
  | .virt p i => (t[i]?).map fun n =>
      if toRight p n.pfx then (none, some (.node i)) else (some (.node i), none)

/-- A decoded subtree of the arena: `nil` is an absent child, and a node
records its arena index, key, stored value and the two decoded children. -/
inductive PTree (T : Type) where
  | nil : PTree T
  | node : Nat → Pfx → Option T → PTree T → PTree T → PTree T
deriving DecidableEq, Repr

/-- The arena index a decoded subtree is rooted at, if any. -/
def childIdx {T : Type} : PTree T → Option Nat
  | .nil => none
  | .node i _ _ _ _ => some i

/-- The key at the root of a decoded subtree (`pZero` for `nil`; only used
on nodes). -/
def rootPfxD {T : Type} : PTree T → Pfx
  | .nil => pZero
  | .node _ p _ _ _ => p

/-- Whether a tree is the faithful unfolding of the arena from its root
index: every node's fields coincide with the arena slot it names. -/
def decodes {T : Type} [DecidableEq T] (t : Table T) : PTree T → Bool
  | .nil => true
  | .node i p v l r =>
      match t[i]? with
      | none => false
      | some n =>
          decide (n.pfx = p) && decide (n.value = v) &&
          decide (n.left = childIdx l) && decide (n.right = childIdx r) &&
          decodes t l && decodes t r

/-- Whether the root of a subtree, if present, extends the given key. -/
def rootExt {T : Type} (q : Pfx) : PTree T → Bool
  | .nil => true
  | .node _ p _ _ _ => q.isPrefixOf p

/-- The tree-shape invariants I1 and I2: each child key strictly extends its
parent's key, on the side given by the next bit. -/
def twf {T : Type} : PTree T → Bool
  | .nil => true
  | .node _ p _ l r =>
      rootExt (p ++ [false]) l && rootExt (p ++ [true]) r && twf l && twf r

/-- The entries a depth-first left-before-right traversal of a decoded
subtree yields: the node's own entry (when valued), then the left subtree,
then the right subtree. -/
def treeElems {T : Type} : PTree T → List (Pfx × T)
  | .nil => []
  | .node _ p v l r =>
      (match v with | some x => [(p, x)] | none => []) ++
      treeElems l ++ treeElems r

/-- All (index, key) pairs of the nodes of a decoded subtree. -/
def nodesOf {T : Type} : PTree T → List (Nat × Pfx)
  | .nil => []
  | .node i p _ l r => (i, p) :: (nodesOf l ++ nodesOf r)

/-- Number of nodes of a decoded subtree: the exact number of stack pops the
iterator performs on it. -/
def sizeT {T : Type} : PTree T → Nat
  | .nil => 0
  | .node _ _ _ l r => 1 + sizeT l + sizeT r

/-- Total size of a decoded forest. -/
def sizeF {T : Type} (trs : List (PTree T)) : Nat := (trs.map sizeT).sum

/-- The global invariant of a map's arena: the root index 0 with the zero
key unfolds to a well-shaped tree. -/
def TableInv {T : Type} [DecidableEq T] (t : Table T) : Prop :=
  ∃ s : PTree T, decodes t s = true ∧ twf s = true ∧
    childIdx s = some 0 ∧ rootPfxD s = pZero

/-- One arena slot's part of the first-order invariants: a child link must
name an existing node whose key extends the parent's key by the bit of its
side. -/
def childOk {T : Type} (t : Table T) (q : Pfx) : Option Nat → Bool
  | none => true
  | some c =>
      match t[c]? with
      | none => false
      | some cn => q.isPrefixOf cn.pfx

/-- First-order statement of invariants I1, I2 and I4 over every arena
slot: children exist, and each child's key strictly extends its parent's
key on the matching side (which also rules out cycles, since keys strictly
lengthen along every child link). -/
def arenaInv {T : Type} (t : Table T) : Bool :=
  t.all fun n =>
    childOk t (n.pfx ++ [false]) n.left && childOk t (n.pfx ++ [true]) n.right

theorem decodes_node {T : Type} [DecidableEq T] {t : Table T} {i : Nat}
    {p : Pfx} {v : Option T} {l r : PTree T} :
    decodes t (.node i p v l r) = true ↔
    ∃ n : Node T, t[i]? = some n ∧ n.pfx = p ∧ n.value = v ∧
      n.left = childIdx l ∧ n.right = childIdx r ∧
      decodes t l = true ∧ decodes t r = true := by
  constructor
  · intro h
    unfold decodes at h
    cases hn : t[i]? with
    | none => rw [hn] at h; exact absurd h (by simp)
    | some n =>
      rw [hn] at h
      simp only [Bool.and_eq_true, decide_eq_true_eq] at h
      exact ⟨n, rfl, h.1.1.1.1.1, h.1.1.1.1.2, h.1.1.1.2, h.1.1.2, h.1.2, h.2⟩
  · rintro ⟨n, hn, h1, h2, h3, h4, h5, h6⟩
    unfold decodes
    rw [hn]
    simp [h1, h2, h3, h4, h5, h6]

/-- Every node recorded in a decoded subtree is an arena slot with the
recorded key. -/
theorem nodesOf_decodes {T : Type} [DecidableEq T] {t : Table T} :
    ∀ {s : PTree T}, decodes t s = true → ∀ {i : Nat} {k : Pfx},
      (i, k) ∈ nodesOf s → ∃ n : Node T, t[i]? = some n ∧ n.pfx = k := by
  intro s
  induction s with
  | nil => intro _ i k h; simp [nodesOf] at h
  | node j p v l r ihl ihr =>
    intro hdec i k hmem
    obtain ⟨n, hn, hp, hv, hl, hr, hdl, hdr⟩ := decodes_node.mp hdec
    simp only [nodesOf, List.mem_cons, List.mem_append] at hmem
    rcases hmem with h | h | h
    · obtain ⟨rfl, rfl⟩ := Prod.mk.injEq .. ▸ h
      exact ⟨n, by simp_all⟩
    · exact ihl hdl h
    · exact ihr hdr h

theorem nodesOf_lt_length {T : Type} [DecidableEq T] {t : Table T}
    {s : PTree T} (hdec : decodes t s = true) {i : Nat} {k : Pfx}
    (h : (i, k) ∈ nodesOf s) : i < t.length := by
  obtain ⟨n, hn, _⟩ := nodesOf_decodes hdec h
  exact (List.getElem?_eq_some.mp hn).1

/-- Decoding only reads the slots named in the tree, so an arena that agrees
on those slots decodes the same tree. -/
theorem decodes_frame {T : Type} [DecidableEq T] {t t' : Table T} :
    ∀ {s : PTree T},
      (∀ i k, (i, k) ∈ nodesOf s → t'[i]? = t[i]?) →
      decodes t s = true → decodes t' s = true := by
  intro s
  induction s with
  | nil => intro _ _; rfl
  | node j p v l r ihl ihr =>
    intro hag hdec
    obtain ⟨n, hn, hp, hv, hl, hr, hdl, hdr⟩ := decodes_node.mp hdec
    refine decodes_node.mpr ⟨n, ?_, hp, hv, hl, hr, ?_, ?_⟩
    · rw [hag j p (by simp [nodesOf]), hn]
    · exact ihl (fun i k h => hag i k (by simp [nodesOf, h])) hdl
    · exact ihr (fun i k h => hag i k (by simp [nodesOf, h])) hdr

/-- Every key in a well-shaped subtree extends the key at its root. -/
theorem nodesOf_ext {T : Type} : ∀ {s : PTree T}, twf s = true →
    ∀ {i : Nat} {k : Pfx}, (i, k) ∈ nodesOf s → rootPfxD s <+: k := by
  intro s
  induction s with
  | nil => intro _ i k h; simp [nodesOf] at h
  | node j p v l r ihl ihr =>
    intro htwf i k hmem
    simp only [twf, Bool.and_eq_true] at htwf
    obtain ⟨⟨⟨hrl, hrr⟩, htl⟩, htr⟩ := htwf
    simp only [nodesOf, List.mem_cons, List.mem_append] at hmem
    rcases hmem with h | h | h
    · obtain ⟨rfl, rfl⟩ := Prod.mk.injEq .. ▸ h
      exact List.prefix_refl _
    · have h1 := ihl htl h
      cases l with
      | nil => simp [nodesOf] at h
      | node li lp lv ll lr =>
        have h2 : p ++ [false] <+: lp := by
          simpa [rootExt, List.isPrefixOf_iff_prefix] using hrl
        exact ((List.prefix_append p [false]).trans h2).trans h1
    · have h1 := ihr htr h
      cases r with
      | nil => simp [nodesOf] at h
      | node ri rp rv rl rr =>
        have h2 : p ++ [true] <+: rp := by
          simpa [rootExt, List.isPrefixOf_iff_prefix] using hrr
        exact ((List.prefix_append p [true]).trans h2).trans h1

/-- Keys yielded by a subtree are keys of its nodes. -/
theorem treeElems_to_nodesOf {T : Type} : ∀ {s : PTree T} {k : Pfx} {x : T},
    (k, x) ∈ treeElems s → ∃ i, (i, k) ∈ nodesOf s := by
  intro s
  induction s with
  | nil => intro k x h; simp [treeElems] at h
  | node j p v l r ihl ihr =>
    intro k x hmem
    simp only [treeElems, List.mem_append] at hmem
    rcases hmem with (h | h) | h
    · cases v with
      | none => simp at h
      | some y =>
        simp only [List.mem_singleton, Prod.mk.injEq] at h
        exact ⟨j, by simp [nodesOf, h.1]⟩
    · obtain ⟨i, hi⟩ := ihl h
      exact ⟨i, by simp [nodesOf, hi]⟩
    · obtain ⟨i, hi⟩ := ihr h
      exact ⟨i, by simp [nodesOf, hi]⟩

/-- A yielded entry names a value-bearing arena slot. -/
theorem treeElems_to_node {T : Type} [DecidableEq T] {t : Table T} :
    ∀ {s : PTree T}, decodes t s = true → ∀ {k : Pfx} {x : T},
      (k, x) ∈ treeElems s →
      ∃ i n, (i, k) ∈ nodesOf s ∧ t[i]? = some n ∧ n.pfx = k ∧
        n.value = some x := by
  intro s
  induction s with
  | nil => intro _ k x h; simp [treeElems] at h
  | node j p v l r ihl ihr =>
    intro hdec k x hmem
    obtain ⟨n, hn, hp, hv, hl, hr, hdl, hdr⟩ := decodes_node.mp hdec
    simp only [treeElems, List.mem_append] at hmem
    rcases hmem with (h | h) | h
    · cases v with
      | none => simp at h
      | some y =>
        simp only [List.mem_singleton, Prod.mk.injEq] at h
        exact ⟨j, n, by simp [nodesOf, h.1], hn, by simp_all [h.1], by simp_all [h.2]⟩
    · obtain ⟨i, n', h1, h2, h3, h4⟩ := ihl hdl h
      exact ⟨i, n', by simp [nodesOf, h1], h2, h3, h4⟩
    · obtain ⟨i, n', h1, h2, h3, h4⟩ := ihr hdr h
      exact ⟨i, n', by simp [nodesOf, h1], h2, h3, h4⟩

/-- A value-bearing node of a decoded subtree appears among its entries. -/
theorem node_to_treeElems {T : Type} [DecidableEq T] {t : Table T} :
    ∀ {s : PTree T}, decodes t s = true → ∀ {i : Nat} {k : Pfx},
      (i, k) ∈ nodesOf s → ∀ {n : Node T} {x : T}, t[i]? = some n →
      n.value = some x → (k, x) ∈ treeElems s := by
  intro s
  induction s with
  | nil => intro _ i k h; simp [nodesOf] at h
  | node j p v l r ihl ihr =>
    intro hdec i k hmem n x hn hx
    obtain ⟨n', hn', hp, hv, hl, hr, hdl, hdr⟩ := decodes_node.mp hdec
    simp only [nodesOf, List.mem_cons, List.mem_append] at hmem
    rcases hmem with h | h | h
    · obtain ⟨rfl, rfl⟩ := Prod.mk.injEq .. ▸ h
      rw [hn'] at hn
      cases hn
      simp [treeElems, ← hv, hx, ← hp]
    · exact by simp [treeElems, ihl hdl h hn hx]
    · exact by simp [treeElems, ihr hdr h hn hx]


/-- The forest a subtree contributes to the traversal stack: nothing for an
absent child, itself otherwise. -/
def subForest {T : Type} : PTree T → List (PTree T)
  | .nil => []
  | .node i p v l r => [.node i p v l r]

theorem subForest_stack {T : Type} (s : PTree T) :
    List.Forall₂ (fun (i : Nat) (u : PTree T) => childIdx u = some i)
      (match childIdx s with | some c => [c] | none => []) (subForest s) := by
  cases s with
  | nil => exact List.Forall₂.nil
  | node i p v l r => exact List.Forall₂.cons rfl List.Forall₂.nil

theorem subForest_elems {T : Type} (s : PTree T) :
    ((subForest s).map treeElems).flatten = treeElems s := by
  cases s <;> simp [subForest, treeElems]

theorem subForest_size {T : Type} (s : PTree T) :
    sizeF (subForest s) = sizeT s := by
  cases s <;> simp [subForest, sizeF, sizeT]

theorem subForest_mem {T : Type} {s u : PTree T} (h : u ∈ subForest s) :
    u = s := by
  cases s <;> simp_all [subForest]

theorem sizeF_append {T : Type} (a b : List (PTree T)) :
    sizeF (a ++ b) = sizeF a + sizeF b := by
  simp [sizeF]

/-- With fuel equal to the total node count, the explicit-stack iterator on
a decoded forest yields exactly the concatenated depth-first entries. -/
theorem iterAux_forest {T : Type} [DecidableEq T] {t : Table T} :
    ∀ (fuel : Nat) (trs : List (PTree T)) (stack : List Nat),
      sizeF trs = fuel →
      List.Forall₂ (fun (i : Nat) (s : PTree T) => childIdx s = some i) stack trs →
      (∀ s ∈ trs, decodes t s = true) →
      iterAux t fuel stack = some (trs.map treeElems).flatten := by
  intro fuel
  induction fuel using Nat.strong_induction_on with
  | _ fuel ih =>
    intro trs stack hsz hf hdec
    cases hf with
    | nil => cases fuel <;> simp [iterAux, sizeF]
    | @cons i s stack' trs' hhead htail =>
      cases s with
      | nil => simp [childIdx] at hhead
      | node j p v l r =>
        obtain rfl : j = i := by simpa [childIdx] using hhead
        obtain ⟨n, hn, hp, hv, hl, hr, hdl, hdr⟩ :=
          decodes_node.mp (hdec (PTree.node j p v l r) (by simp))
        have hsz0 : 1 + sizeT l + sizeT r + sizeF trs' = fuel := by
          simpa [sizeF, sizeT, Nat.add_assoc] using hsz
        obtain rfl : fuel = (sizeT l + sizeT r + sizeF trs') + 1 := by omega
        have hstep := ih (sizeT l + sizeT r + sizeF trs') (by omega)
          (subForest l ++ (subForest r ++ trs'))
          ((match childIdx l with | some c => [c] | none => []) ++
            ((match childIdx r with | some c => [c] | none => []) ++ stack'))
          (by simp only [sizeF_append, subForest_size]; omega)
          (by
            refine List.rel_append (subForest_stack l) ?_
            exact List.rel_append (subForest_stack r) htail)
          (by
            intro u hu
            simp only [List.mem_append] at hu
            rcases hu with hu | hu | hu
            · exact subForest_mem hu ▸ hdl
            · exact subForest_mem hu ▸ hdr
            · exact hdec u (by simp [hu]))
        simp only [iterAux, hn, Option.bind_eq_bind, Option.some_bind, hl, hr]
        rw [List.append_assoc, hstep]
        cases v with
        | none =>
          simp [treeElems, List.map_append, List.flatten_append, subForest_elems, hv, hp]
        | some x =>
          simp [treeElems, List.map_append, List.flatten_append, subForest_elems, hv, hp]

/-- A successful iterator run is stable under extra fuel. -/
theorem iterAux_mono {T : Type} {t : Table T} :
    ∀ (f g : Nat) (stack : List Nat) (res : List (Pfx × T)), f ≤ g →
      iterAux t f stack = some res → iterAux t g stack = some res := by
  intro f
  induction f with
  | zero =>
    intro g stack res _ h
    cases stack with
    | nil => cases g <;> simpa [iterAux] using h
    | cons c rest => simp [iterAux] at h
  | succ f ihf =>
    intro g stack res hle h
    cases stack with
    | nil => cases g <;> simpa [iterAux] using h
    | cons c rest =>
      obtain ⟨g', rfl⟩ : ∃ g', g = g' + 1 := ⟨g - 1, by omega⟩
      simp only [iterAux, Option.bind_eq_bind] at h ⊢
      cases hn : t[c]? with
      | none => rw [hn] at h; simp at h
      | some n =>
        rw [hn] at h
        simp only [Option.some_bind] at h ⊢
        cases hrec : iterAux t f
            (((match n.left with | some x => [x] | none => []) ++
              match n.right with | some x => [x] | none => []) ++ rest) with
        | none => rw [hrec] at h; simp at h
        | some res' =>
          rw [hrec] at h
          rw [ihf g' _ res' (by omega) hrec]
          exact h

/-- Two successful runs of the iterator agree, whatever their fuels. -/
theorem iterAux_det {T : Type} {t : Table T} {f g : Nat} {stack : List Nat}
    {res1 res2 : List (Pfx × T)} (h1 : iterAux t f stack = some res1)
    (h2 : iterAux t g stack = some res2) : res1 = res2 := by
  rcases Nat.le_total f g with h | h
  · have := iterAux_mono f g stack res1 h h1
    rw [this] at h2
    exact Option.some_inj.mp h2
  · have := iterAux_mono g f stack res2 h h2
    rw [this] at h1
    exact (Option.some_inj.mp h1).symm

/-- Keys yielded from one side of a well-shaped node extend that side's key
extension. -/
theorem treeElems_ext_side {T : Type} {q : Pfx} {s : PTree T}
    (hre : rootExt q s = true) (htwf : twf s = true) {k : Pfx} {x : T}
    (h : (k, x) ∈ treeElems s) : q <+: k := by
  cases s with
  | nil => simp [treeElems] at h
  | node i sp sv sl sr =>
    obtain ⟨i', hi⟩ := treeElems_to_nodesOf h
    have h1 := nodesOf_ext htwf hi
    have h2 : q <+: sp := by
      simpa [rootExt, List.isPrefixOf_iff_prefix] using hre
    exact h2.trans h1

/-- Invariants I1 and I2 make the depth-first entry list strictly
ascending. -/
theorem treeElems_sorted {T : Type} : ∀ {s : PTree T}, twf s = true →
    (treeElems s).Pairwise (fun a b => pfxLt a.1 b.1 = true) := by
  intro s
  induction s with
  | nil => intro _; simp [treeElems]
  | node j p v l r ihl ihr =>
    intro htwf
    simp only [twf, Bool.and_eq_true] at htwf
    obtain ⟨⟨⟨hrl, hrr⟩, htl⟩, htr⟩ := htwf
    have hkl : ∀ e ∈ treeElems l, p ++ [false] <+: e.1 := fun e he =>
      treeElems_ext_side hrl htl (by simpa using he)
    have hkr : ∀ e ∈ treeElems r, p ++ [true] <+: e.1 := fun e he =>
      treeElems_ext_side hrr htr (by simpa using he)
    have hcross : ∀ a ∈ treeElems l, ∀ b ∈ treeElems r,
        pfxLt a.1 b.1 = true := by
      intro a ha b hb
      obtain ⟨xs, hxs⟩ := hkl a ha
      obtain ⟨ys, hys⟩ := hkr b hb
      rw [← hxs, ← hys, List.append_assoc, List.append_assoc]
      exact pfxLt_diverge p xs ys
    have hroot : ∀ b ∈ treeElems l ++ treeElems r, pfxLt p b.1 = true := by
      intro b hb
      have hb' : p ++ [false] <+: b.1 ∨ p ++ [true] <+: b.1 := by
        rcases List.mem_append.mp hb with h | h
        · exact Or.inl (hkl b h)
        · exact Or.inr (hkr b h)
      rcases hb' with ⟨xs, hxs⟩ | ⟨xs, hxs⟩
      · rw [← hxs, List.append_assoc]
        exact pfxLt_append p false xs
      · rw [← hxs, List.append_assoc]
        exact pfxLt_append p true xs
    cases v with
    | none =>
      simp only [treeElems, List.nil_append]
      exact List.pairwise_append.mpr ⟨ihl htl, ihr htr, hcross⟩
    | some x =>
      simp only [treeElems, List.singleton_append]
      refine List.pairwise_cons.mpr
        ⟨?_, List.pairwise_append.mpr ⟨ihl htl, ihr htr, hcross⟩⟩
      intro b hb
      exact hroot b hb

/-- A node constructor that places `sb` on side `b` and `so` on the other
side, letting proofs about the graft cases stay side-generic. -/
def mkNode {T : Type} (i : Nat) (p : Pfx) (v : Option T) (b : Bool)
    (sb so : PTree T) : PTree T :=
  if b then .node i p v so sb else .node i p v sb so

theorem childIdx_mkNode {T : Type} (i : Nat) (p : Pfx) (v : Option T)
    (b : Bool) (sb so : PTree T) : childIdx (mkNode i p v b sb so) = some i := by
  cases b <;> rfl

theorem rootPfxD_mkNode {T : Type} (i : Nat) (p : Pfx) (v : Option T)
    (b : Bool) (sb so : PTree T) : rootPfxD (mkNode i p v b sb so) = p := by
  cases b <;> rfl

theorem decodes_mkNode {T : Type} [DecidableEq T] {t : Table T} {i : Nat}
    {p : Pfx} {v : Option T} {b : Bool} {sb so : PTree T} :
    decodes t (mkNode i p v b sb so) = true ↔
    ∃ n : Node T, t[i]? = some n ∧ n.pfx = p ∧ n.value = v ∧
      childLink n b = childIdx sb ∧ childLink n (!b) = childIdx so ∧
      decodes t sb = true ∧ decodes t so = true := by
  cases b with
  | false =>
    have e : mkNode i p v false sb so = .node i p v sb so := rfl
    rw [e, decodes_node]
    simp only [childLink, Bool.not_false, if_pos, if_neg]
    constructor
    · rintro ⟨n, h1, h2, h3, h4, h5, h6, h7⟩
      exact ⟨n, h1, h2, h3, h4, h5, h6, h7⟩
    · rintro ⟨n, h1, h2, h3, h4, h5, h6, h7⟩
      exact ⟨n, h1, h2, h3, h4, h5, h6, h7⟩
  | true =>
    have e : mkNode i p v true sb so = .node i p v so sb := rfl
    rw [e, decodes_node]
    constructor
    · rintro ⟨n, h1, h2, h3, h4, h5, h6, h7⟩
      exact ⟨n, h1, h2, h3, h5, h4, h7, h6⟩
    · rintro ⟨n, h1, h2, h3, h4, h5, h6, h7⟩
      exact ⟨n, h1, h2, h3, h5, h4, h7, h6⟩

theorem twf_mkNode {T : Type} {i : Nat} {p : Pfx} {v : Option T} {b : Bool}
    {sb so : PTree T} :
    twf (mkNode i p v b sb so) = true ↔
    rootExt (p ++ [b]) sb = true ∧ rootExt (p ++ [!b]) so = true ∧
      twf sb = true ∧ twf so = true := by
  cases b <;> simp [mkNode, twf] <;> tauto

theorem nodesOf_mkNode_mem {T : Type} {i : Nat} {p : Pfx} {v : Option T}
    {b : Bool} {sb so : PTree T} {j : Nat} {k : Pfx} :
    (j, k) ∈ nodesOf (mkNode i p v b sb so) ↔
    (j = i ∧ k = p) ∨ (j, k) ∈ nodesOf sb ∨ (j, k) ∈ nodesOf so := by
  cases b <;> simp [mkNode, nodesOf] <;> tauto

/-- The node update `set_child` performs on the addressed slot. -/
def setLink {T : Type} (n : Node T) (c : Nat) (b : Bool) : Node T :=
  if b then { n with right := some c } else { n with left := some c }

theorem set_child_some {T : Type} {t : Table T} {idx : Nat} {n : Node T}
    (hn : t[idx]? = some n) (c : Nat) (b : Bool) :
    set_child t idx c b = some (t.set idx (setLink n c b), childLink n b) := by
  cases b <;> simp [set_child, hn, setLink, childLink]

theorem childLink_setLink_same {T : Type} (n : Node T) (c : Nat) (b : Bool) :
    childLink (setLink n c b) b = some c := by
  cases b <;> simp [childLink, setLink]

theorem childLink_setLink_other {T : Type} (n : Node T) (c : Nat) (b : Bool) :
    childLink (setLink n c b) (!b) = childLink n (!b) := by
  cases b <;> simp [childLink, setLink]

theorem setLink_pfx {T : Type} (n : Node T) (c : Nat) (b : Bool) :
    (setLink n c b).pfx = n.pfx := by
  cases b <;> rfl

theorem setLink_value {T : Type} (n : Node T) (c : Nat) (b : Bool) :
    (setLink n c b).value = n.value := by
  cases b <;> rfl

theorem not_snoc_prefix_self (q : Pfx) (c : Bool) : ¬ (q ++ [c] <+: q) := by
  intro h
  have := h.length_le
  simp at this

theorem snoc_prefix_conflict {q : Pfx} {c : Bool} {k : Pfx}
    (h1 : q ++ [c] <+: k) (h2 : q ++ [!c] <+: k) : False := by
  obtain ⟨xs, hxs⟩ := h1
  obtain ⟨ys, hys⟩ := h2
  have e1 : toRight q k = c := by
    rw [← hxs, List.append_assoc]
    exact toRight_append q c xs
  have e2 : toRight q k = !c := by
    rw [← hys, List.append_assoc]
    exact toRight_append q (!c) ys
  rw [e1] at e2
  cases c <;> simp at e2

/-- Keys on one side of a node extend its key plus the side bit. -/
theorem nodesOf_ext_side {T : Type} {q : Pfx} {s : PTree T}
    (hre : rootExt q s = true) (htwf : twf s = true) {i : Nat} {k : Pfx}
    (h : (i, k) ∈ nodesOf s) : q <+: k := by
  cases s with
  | nil => simp [nodesOf] at h
  | node i' sp sv sl sr =>
    have h1 := nodesOf_ext htwf h
    have h2 : q <+: sp := by
      simpa [rootExt, List.isPrefixOf_iff_prefix] using hre
    exact h2.trans h1

/-- An arena slot whose key does not extend `q` cannot occur in a subtree
whose keys all extend `q`. -/
theorem side_no_self {T : Type} [DecidableEq T] {t : Table T} {sub : PTree T}
    {q : Pfx} (hdec : decodes t sub = true) (hre : rootExt q sub = true)
    (htwf : twf sub = true) {i : Nat} {n : Node T} (hn : t[i]? = some n)
    (hq : ¬ q <+: n.pfx) : ∀ k, (i, k) ∉ nodesOf sub := by
  intro k hk
  obtain ⟨n', hn', hpk⟩ := nodesOf_decodes hdec hk
  rw [hn] at hn'
  cases hn'
  exact hq (hpk ▸ nodesOf_ext_side hre htwf hk)

theorem gdfi_reached {T : Type} {t : Table T} {idx : Nat} {n : Node T}
    {p : Pfx} (hn : t[idx]? = some n) (hp : n.pfx = p) :
    get_direction_for_insert t idx p = some .Reached := by
  simp [get_direction_for_insert, hn, hp]

theorem gdfi_newleaf {T : Type} {t : Table T} {idx : Nat} {n : Node T}
    {p : Pfx} (hn : t[idx]? = some n) (hp : n.pfx ≠ p)
    (hcl : childLink n (toRight n.pfx p) = none) :
    get_direction_for_insert t idx p = some (.NewLeaf (toRight n.pfx p)) := by
  simp [get_direction_for_insert, hn, hp, hcl]

theorem gdfi_enter {T : Type} {t : Table T} {idx c : Nat} {n cn : Node T}
    {p : Pfx} (hn : t[idx]? = some n) (hp : n.pfx ≠ p)
    (hcl : childLink n (toRight n.pfx p) = some c) (hcn : t[c]? = some cn)
    (h1 : pContains cn.pfx p = true) :
    get_direction_for_insert t idx p = some (.Enter c (toRight n.pfx p)) := by
  simp [get_direction_for_insert, hn, hp, hcl, hcn, h1]

theorem gdfi_newchild {T : Type} {t : Table T} {idx c : Nat} {n cn : Node T}
    {p : Pfx} (hn : t[idx]? = some n) (hp : n.pfx ≠ p)
    (hcl : childLink n (toRight n.pfx p) = some c) (hcn : t[c]? = some cn)
    (h1 : pContains cn.pfx p = false) (h2 : pContains p cn.pfx = true) :
    get_direction_for_insert t idx p =
      some (.NewChild (toRight n.pfx p) (toRight p cn.pfx)) := by
  simp [get_direction_for_insert, hn, hp, hcl, hcn, h1, h2]

theorem gdfi_newbranch {T : Type} {t : Table T} {idx c : Nat} {n cn : Node T}
    {p : Pfx} (hn : t[idx]? = some n) (hp : n.pfx ≠ p)
    (hcl : childLink n (toRight n.pfx p) = some c) (hcn : t[c]? = some cn)
    (h1 : pContains cn.pfx p = false) (h2 : pContains p cn.pfx = false) :
    get_direction_for_insert t idx p =
      some (.NewBranch (lcp p cn.pfx) (toRight n.pfx p)
        (toRight (lcp p cn.pfx) p)) := by
  simp [get_direction_for_insert, hn, hp, hcl, hcn, h1, h2]

theorem findInsertIdx_enter {T : Type} {t : Table T} {p : Pfx} {idx c : Nat}
    {b : Bool} {f : Nat}
    (hdir : get_direction_for_insert t idx p = some (.Enter c b)) :
    findInsertIdx t p (f + 1) idx = findInsertIdx t p f c := by
  simp [findInsertIdx, hdir]

theorem findInsertIdx_stop {T : Type} {t : Table T} {p : Pfx} {idx : Nat}
    {d : DirectionForInsert} {f : Nat}
    (hdir : get_direction_for_insert t idx p = some d)
    (hd : ∀ c b, d ≠ .Enter c b) :
    findInsertIdx t p (f + 1) idx = some (idx, d) := by
  cases d with
  | Enter c b => exact absurd rfl (hd c b)
  | Reached => simp [findInsertIdx, hdir]
  | NewLeaf b => simp [findInsertIdx, hdir]
  | NewChild b cb => simp [findInsertIdx, hdir]
  | NewBranch bp b pr => simp [findInsertIdx, hdir]

theorem entry_insert_reached {T : Type} {t : Table T} {idx : Nat}
    {n : Node T} (hn : t[idx]? = some n) (p : Pfx) (v : T) :
    entry_insert t p idx .Reached v =
      some (t.set idx { n with value := some v }, n.value) := by
  simp [entry_insert, hn]

theorem entry_insert_newleaf {T : Type} {t : Table T} {idx : Nat}
    {n : Node T} (hn : t[idx]? = some n) (hidx : idx < t.length)
    (p : Pfx) (v : T) (b : Bool) :
    entry_insert t p idx (.NewLeaf b) v =
      some ((t ++ [(⟨p, some v, none, none⟩ : Node T)]).set idx
        (setLink n t.length b), none) := by
  have h1 : (t ++ [(⟨p, some v, none, none⟩ : Node T)])[idx]? = some n := by
    rw [List.getElem?_append_left hidx]; exact hn
  simp only [entry_insert, set_child_some h1]
  rfl

theorem entry_insert_newchild {T : Type} {t : Table T} {idx c : Nat}
    {n : Node T} (hn : t[idx]? = some n) (hidx : idx < t.length)
    {b : Bool} (hc : childLink n b = some c) (p : Pfx) (v : T) (cbr : Bool) :
    entry_insert t p idx (.NewChild b cbr) v =
      some ((((t ++ [(⟨p, some v, none, none⟩ : Node T)]).set idx
          (setLink n t.length b)).set t.length
          (setLink (⟨p, some v, none, none⟩ : Node T) c cbr)), none) := by
  have h1 : (t ++ [(⟨p, some v, none, none⟩ : Node T)])[idx]? = some n := by
    rw [List.getElem?_append_left hidx]; exact hn
  have h2 : ((t ++ [(⟨p, some v, none, none⟩ : Node T)]).set idx
      (setLink n t.length b))[t.length]? =
      some (⟨p, some v, none, none⟩ : Node T) := by
    rw [List.getElem?_set_ne (by omega)]
    exact List.getElem?_concat_length t _
  simp only [entry_insert, Option.bind_eq_bind, set_child_some h1,
    Option.some_bind, hc, set_child_some h2]
  rfl

theorem entry_insert_newbranch {T : Type} {t : Table T} {idx c : Nat}
    {n : Node T} (hn : t[idx]? = some n) (hidx : idx < t.length)
    {b : Bool} (hc : childLink n b = some c) (p bp : Pfx) (v : T) (pr : Bool) :
    entry_insert t p idx (.NewBranch bp b pr) v =
      some ((((t ++ [(⟨bp, none, none, none⟩ : Node T)] ++
          [(⟨p, some v, none, none⟩ : Node T)]).set
          idx (setLink n t.length b)).set t.length
          (setLink (⟨bp, none, none, none⟩ : Node T) (t.length + 1) pr)).set
          t.length
          (setLink (setLink (⟨bp, none, none, none⟩ : Node T) (t.length + 1) pr)
            c (!pr)),
        none) := by
  have h1 : (t ++ [(⟨bp, none, none, none⟩ : Node T)] ++
      [(⟨p, some v, none, none⟩ : Node T)])[idx]? = some n := by
    rw [List.getElem?_append_left (by simp; omega)]
    rw [List.getElem?_append_left hidx]
    exact hn
  have h2 : ((t ++ [(⟨bp, none, none, none⟩ : Node T)] ++
      [(⟨p, some v, none, none⟩ : Node T)]).set idx
      (setLink n t.length b))[t.length]? =
      some (⟨bp, none, none, none⟩ : Node T) := by
    rw [List.getElem?_set_ne (by omega)]
    rw [List.getElem?_append_left (by simp)]
    exact List.getElem?_concat_length t _
  have h3 : (((t ++ [(⟨bp, none, none, none⟩ : Node T)] ++
      [(⟨p, some v, none, none⟩ : Node T)]).set idx
      (setLink n t.length b)).set t.length
      (setLink (⟨bp, none, none, none⟩ : Node T) (t.length + 1) pr))[t.length]? =
      some (setLink (⟨bp, none, none, none⟩ : Node T) (t.length + 1) pr) := by
    rw [List.getElem?_set_self]
    simp
  simp only [entry_insert, Option.bind_eq_bind, List.length_append,
    List.length_cons, List.length_nil, Nat.zero_add, set_child_some h1,
    Option.some_bind, hc, set_child_some h2, set_child_some h3]
  rfl

theorem snoc_toRight_prefix {q k : Pfx} (h : q <+: k) (hne : q ≠ k) :
    q ++ [toRight q k] <+: k := by
  obtain ⟨d, ds, hd⟩ := proper_prefix_decomp h hne
  rw [hd, toRight_append]
  exact ⟨ds, by simp⟩

theorem rootExt_of_prefix {T : Type} {q : Pfx} {s : PTree T}
    (h : q <+: rootPfxD s) : rootExt q s = true := by
  cases s with
  | nil => rfl
  | node i p v l r =>
    simpa [rootExt, List.isPrefixOf_iff_prefix] using h

/-- One locate-and-graft insertion on a decoded, well-shaped subtree: the
pipeline succeeds, the subtree decodes again at the same root index with
the same key, the shape invariants persist, the arena only grows, and at
most one pre-existing slot changes, keeping its key; that key extends the
subtree root's key. -/
theorem insert_descend {T : Type} [DecidableEq T] {t : Table T} (p : Pfx)
    (v : T) :
    ∀ (N : Nat) (s : PTree T) (fuel idx : Nat), sizeT s ≤ N →
      decodes t s = true → twf s = true → childIdx s = some idx →
      rootPfxD s <+: p →
      p.length + 1 - (rootPfxD s).length ≤ fuel →
      ∃ (t' : Table T) (old : Option T) (s' : PTree T) (i0 : Nat)
        (n0 n0' : Node T),
        (do
          let r ← findInsertIdx t p fuel idx
          entry_insert t p r.1 r.2 v) = some (t', old) ∧
        decodes t' s' = true ∧ twf s' = true ∧ childIdx s' = some idx ∧
        rootPfxD s' = rootPfxD s ∧
        t.length ≤ t'.length ∧
        t[i0]? = some n0 ∧ t'[i0]? = some n0' ∧ n0'.pfx = n0.pfx ∧
        rootPfxD s <+: n0.pfx ∧
        (∀ j, j < t.length → j ≠ i0 → t'[j]? = t[j]?) := by
  intro N
  induction N with
  | zero =>
    intro s fuel idx hsz
    cases s with
    | nil => intro _ _ h; simp [childIdx] at h
    | node j p0 v0 l r => simp [sizeT] at hsz
  | succ N ihN =>
    intro s fuel idx hsz hdec htwf hidx hcont hfuel
    cases s with
    | nil => simp [childIdx] at hidx
    | node j p0 v0 l r =>
    obtain rfl : idx = j := by simpa [childIdx] using hidx.symm
    obtain ⟨n, hn, hp, hv, hl, hr, hdl, hdr⟩ := decodes_node.mp hdec
    simp only [twf, Bool.and_eq_true] at htwf
    obtain ⟨⟨⟨hrl, hrr⟩, htl⟩, htr⟩ := htwf
    simp only [rootPfxD] at hcont hfuel ⊢
    have hidxlt : idx < t.length := (List.getElem?_eq_some.mp hn).1
    have hlen0 : p0.length ≤ p.length := hcont.length_le
    obtain ⟨f, rfl⟩ : ∃ f, fuel = f + 1 := ⟨fuel - 1, by omega⟩
    by_cases hpp : p0 = p
    · -- the prefix is already present: only the value changes
      have hdir := gdfi_reached hn (hp.trans hpp)
      have hstop := findInsertIdx_stop (f := f) hdir (by intro c b h; cases h)
      have hins := entry_insert_reached hn p v
      have hfr : ∀ j, j < t.length → j ≠ idx →
          (t.set idx { n with value := some v })[j]? = t[j]? := by
        intro j _ hne
        exact List.getElem?_set_ne (fun he => hne he.symm)
      have hsubl : decodes (t.set idx { n with value := some v }) l = true := by
        refine decodes_frame ?_ hdl
        intro i k hm
        have hne : i ≠ idx := fun he => side_no_self hdl hrl htl hn
          (by rw [hp]; exact not_snoc_prefix_self p0 false) k (he ▸ hm)
        exact List.getElem?_set_ne (fun he => hne he.symm)
      have hsubr : decodes (t.set idx { n with value := some v }) r = true := by
        refine decodes_frame ?_ hdr
        intro i k hm
        have hne : i ≠ idx := fun he => side_no_self hdr hrr htr hn
          (by rw [hp]; exact not_snoc_prefix_self p0 true) k (he ▸ hm)
        exact List.getElem?_set_ne (fun he => hne he.symm)
      refine ⟨t.set idx { n with value := some v }, n.value,
        PTree.node idx p0 (some v) l r, idx, n, { n with value := some v },
        ?_, ?_, ?_, rfl, rfl, ?_, hn, ?_, rfl, by rw [hp], hfr⟩
      · rw [show (do
            let r ← findInsertIdx t p (f + 1) idx
            entry_insert t p r.1 r.2 v) =
            entry_insert t p idx .Reached v from by rw [hstop]; rfl]
        exact hins
      · exact decodes_node.mpr ⟨{ n with value := some v },
          List.getElem?_set_self hidxlt, hp, rfl, hl, hr, hsubl, hsubr⟩
      · simp only [twf, Bool.and_eq_true]
        exact ⟨⟨⟨hrl, hrr⟩, htl⟩, htr⟩
      · simp [List.length_set]
      · exact List.getElem?_set_self hidxlt
    · -- the prefix differs: move towards it, or graft beside the child
      obtain ⟨b, cs, hpdec⟩ := proper_prefix_decomp hcont hpp
      have hbr : toRight p0 p = b := by rw [hpdec]; exact toRight_append p0 b cs
      have hbp : p0 ++ [b] <+: p := by
        rw [hpdec]
        exact ⟨cs, by simp⟩
      obtain ⟨cb, sib, hcbl, hsibl, hcbre, hsibre, hcbtwf, hsibtwf, hcbdec,
          hsibdec, hcbsz⟩ :
          ∃ cb sib : PTree T, childLink n b = childIdx cb ∧
            childLink n (!b) = childIdx sib ∧
            rootExt (p0 ++ [b]) cb = true ∧ rootExt (p0 ++ [!b]) sib = true ∧
            twf cb = true ∧ twf sib = true ∧
            decodes t cb = true ∧ decodes t sib = true ∧ sizeT cb ≤ N := by
        have hszlr : 1 + sizeT l + sizeT r ≤ N + 1 := by
          simpa [sizeT] using hsz
        cases b
        · exact ⟨l, r, by simpa [childLink] using hl,
            by simpa [childLink] using hr, hrl, by simpa using hrr, htl, htr,
            hdl, hdr, by omega⟩
        · exact ⟨r, l, by simpa [childLink] using hr,
            by simpa [childLink] using hl, hrr, by simpa using hrl, htr, htl,
            hdr, hdl, by omega⟩
      have hsib_no_i : ∀ (i : Nat) (k : Pfx) (m : Node T), t[i]? = some m →
          p0 ++ [b] <+: m.pfx → (i, k) ∉ nodesOf sib := by
        intro i k m hm hext hmem
        obtain ⟨m', hm', hpk⟩ := nodesOf_decodes hsibdec hmem
        rw [hm] at hm'
        cases hm'
        exact snoc_prefix_conflict hext
          (hpk ▸ nodesOf_ext_side hsibre hsibtwf hmem)
      cases cb with
      | nil =>
        -- a free slot on side `b`: graft a leaf
        have hcl : childLink n (toRight n.pfx p) = none := by
          rw [hp, hbr]
          simpa [childIdx] using hcbl
        have hdir := gdfi_newleaf hn (by rw [hp]; exact hpp) hcl
        rw [hp, hbr] at hdir
        have hstop := findInsertIdx_stop (f := f) hdir (by intro c b' h; cases h)
        have hins := entry_insert_newleaf hn hidxlt p v b
        have hidx1 : idx < (t ++ [(⟨p, some v, none, none⟩ : Node T)]).length := by
          simp
          omega
        have hfr : ∀ j, j < t.length → j ≠ idx →
            ((t ++ [(⟨p, some v, none, none⟩ : Node T)]).set idx
              (setLink n t.length b))[j]? = t[j]? := by
          intro j hj hne
          rw [List.getElem?_set_ne (fun he => hne he.symm)]
          exact List.getElem?_append_left hj
        refine ⟨(t ++ [(⟨p, some v, none, none⟩ : Node T)]).set idx
            (setLink n t.length b), none,
          mkNode idx p0 v0 b (PTree.node t.length p (some v) .nil .nil) sib,
          idx, n, setLink n t.length b,
          ?_, ?_, ?_, childIdx_mkNode .., rootPfxD_mkNode .., ?_, hn,
          List.getElem?_set_self hidx1, setLink_pfx .., by rw [hp], hfr⟩
        · rw [show (do
              let r ← findInsertIdx t p (f + 1) idx
              entry_insert t p r.1 r.2 v) =
              entry_insert t p idx (.NewLeaf b) v from by rw [hstop]; rfl]
          exact hins
        · refine decodes_mkNode.mpr ⟨setLink n t.length b,
            List.getElem?_set_self hidx1, (setLink_pfx ..).trans hp,
            (setLink_value ..).trans hv, ?_, ?_, ?_, ?_⟩
          · rw [childLink_setLink_same]
            rfl
          · rw [childLink_setLink_other]
            exact hsibl
          · refine decodes_node.mpr ⟨⟨p, some v, none, none⟩, ?_, rfl, rfl,
              rfl, rfl, rfl, rfl⟩
            rw [List.getElem?_set_ne (by omega)]
            exact List.getElem?_concat_length t _
          · refine decodes_frame ?_ hsibdec
            intro i k hm
            have hne : i ≠ idx := fun he => side_no_self hsibdec hsibre hsibtwf
              hn (by rw [hp]; exact not_snoc_prefix_self p0 (!b)) k (he ▸ hm)
            have hilt : i < t.length := nodesOf_lt_length hsibdec hm
            rw [List.getElem?_set_ne (fun he => hne he.symm)]
            exact List.getElem?_append_left hilt
        · refine twf_mkNode.mpr ⟨?_, hsibre, ?_, hsibtwf⟩
          · exact rootExt_of_prefix (by simpa [rootPfxD] using hbp)
          · simp [twf, rootExt]
        · simp [List.length_set]
      | node c pc pcv pcl pcr =>
        have hcbl' : childLink n b = some c := by simpa [childIdx] using hcbl
        obtain ⟨cn, hcn, hcnp, hcnv, hcnl, hcnr, hdcl, hdcr⟩ :=
          decodes_node.mp hcbdec
        have hpcext : p0 ++ [b] <+: pc := by
          simpa [rootExt, List.isPrefixOf_iff_prefix] using hcbre
        have hpclen : p0.length + 1 ≤ pc.length := by
          have := hpcext.length_le
          simp at this
          omega
        by_cases hEnter : pContains pc p = true
        · -- the child contains the prefix: descend into it
          have hdir := gdfi_enter hn (by rw [hp]; exact hpp)
            (by rw [hp, hbr]; exact hcbl') hcn (by rw [hcnp]; exact hEnter)
          rw [hp, hbr] at hdir
          have hstep := findInsertIdx_enter (f := f) hdir
          have ihres := ihN (PTree.node c pc pcv pcl pcr) f c hcbsz hcbdec
            hcbtwf rfl (by simpa [rootPfxD] using pContains_iff.mp hEnter)
            (by simp only [rootPfxD]; omega)
          obtain ⟨t', old, cb', i0, n0, n0', hres, hdec', htwf', hcidx',
            hroot', hlen', hn0, hn0', hpfx0, hext0, hframe⟩ := ihres
          have hext0' : pc <+: n0.pfx := by simpa [rootPfxD] using hext0
          have hi0idx : i0 ≠ idx := by
            intro he
            rw [he, hn] at hn0
            cases hn0
            exact not_snoc_prefix_self p0 b (hpcext.trans (hp ▸ hext0'))
          refine ⟨t', old, mkNode idx p0 v0 b cb' sib, i0, n0, n0', ?_, ?_,
            ?_, childIdx_mkNode .., rootPfxD_mkNode .., hlen', hn0, hn0',
            hpfx0, ?_, hframe⟩
          · rw [show findInsertIdx t p (f + 1) idx = findInsertIdx t p f c
              from hstep]
            exact hres
          · refine decodes_mkNode.mpr ⟨n, ?_, hp, hv, ?_, hsibl, hdec', ?_⟩
            · rw [hframe idx hidxlt (fun he => hi0idx he.symm)]
              exact hn
            · rw [hcidx']
              exact hcbl'
            · refine decodes_frame ?_ hsibdec
              intro i k hm
              have hilt : i < t.length := nodesOf_lt_length hsibdec hm
              have hne : i ≠ i0 := fun he => hsib_no_i i0 k n0 hn0
                (hpcext.trans hext0') (he ▸ hm)
              exact hframe i hilt hne
          · refine twf_mkNode.mpr ⟨?_, hsibre, htwf', hsibtwf⟩
            refine rootExt_of_prefix ?_
            rw [hroot']
            simpa [rootPfxD] using hpcext
          · exact ((List.prefix_append p0 [b]).trans hpcext).trans hext0'
        · -- the child does not contain the prefix
          have hEnter' : pContains pc p = false := by
            simpa using hEnter
          by_cases hPC : pContains p pc = true
          · -- the prefix contains the child: splice the new node above it
            have hpcne : p ≠ pc := by
              intro he
              rw [he, pContains_refl] at hEnter'
              cases hEnter'
            have hppc : p <+: pc := pContains_iff.mp hPC
            have hpcd : p ++ [toRight p pc] <+: pc :=
              snoc_toRight_prefix hppc hpcne
            have hdir := gdfi_newchild hn (by rw [hp]; exact hpp)
              (by rw [hp, hbr]; exact hcbl') hcn (by rw [hcnp]; exact hEnter')
              (by rw [hcnp]; exact hPC)
            rw [hp, hbr, hcnp] at hdir
            have hstop := findInsertIdx_stop (f := f) hdir
              (by intro c' b' h; cases h)
            have hins := entry_insert_newchild hn hidxlt hcbl' p v
              (toRight p pc)
            have hidx1 : idx <
                (t ++ [(⟨p, some v, none, none⟩ : Node T)]).length := by
              simp
              omega
            have hslot_idx :
                ((((t ++ [(⟨p, some v, none, none⟩ : Node T)]).set idx
                  (setLink n t.length b)).set t.length
                  (setLink ⟨p, some v, none, none⟩ c (toRight p pc))))[idx]? =
                some (setLink n t.length b) := by
              rw [List.getElem?_set_ne (by omega)]
              exact List.getElem?_set_self hidx1
            have hfr : ∀ j, j < t.length → j ≠ idx →
                ((((t ++ [(⟨p, some v, none, none⟩ : Node T)]).set idx
                  (setLink n t.length b)).set t.length
                  (setLink ⟨p, some v, none, none⟩ c (toRight p pc))))[j]? =
                t[j]? := by
              intro j hj hne
              rw [List.getElem?_set_ne (by omega)]
              rw [List.getElem?_set_ne (fun he => hne he.symm)]
              exact List.getElem?_append_left hj
            refine ⟨_, none,
              mkNode idx p0 v0 b
                (mkNode t.length p (some v) (toRight p pc)
                  (PTree.node c pc pcv pcl pcr) .nil) sib,
              idx, n, setLink n t.length b,
              ?_, ?_, ?_, childIdx_mkNode .., rootPfxD_mkNode .., ?_, hn,
              hslot_idx, setLink_pfx .., by rw [hp], hfr⟩
            · rw [show (do
                  let r ← findInsertIdx t p (f + 1) idx
                  entry_insert t p r.1 r.2 v) =
                  entry_insert t p idx (.NewChild b (toRight p pc)) v
                  from by rw [hstop]; rfl]
              exact hins
            · refine decodes_mkNode.mpr ⟨setLink n t.length b, hslot_idx,
                (setLink_pfx ..).trans hp, (setLink_value ..).trans hv,
                ?_, ?_, ?_, ?_⟩
              · rw [childLink_setLink_same, childIdx_mkNode]
              · rw [childLink_setLink_other]
                exact hsibl
              · refine decodes_mkNode.mpr
                  ⟨setLink ⟨p, some v, none, none⟩ c (toRight p pc),
                    List.getElem?_set_self (by simp),
                    setLink_pfx .., setLink_value .., ?_, ?_, ?_, rfl⟩
                · rw [childLink_setLink_same]
                  rfl
                · rw [childLink_setLink_other]
                  cases toRight p pc <;> rfl
                · refine decodes_frame ?_ hcbdec
                  intro i k hm
                  have hilt : i < t.length := nodesOf_lt_length hcbdec hm
                  have hne : i ≠ idx := fun he => side_no_self hcbdec hcbre
                    hcbtwf hn (by rw [hp]; exact not_snoc_prefix_self p0 b) k
                    (he ▸ hm)
                  exact hfr i hilt hne
              · refine decodes_frame ?_ hsibdec
                intro i k hm
                have hilt : i < t.length := nodesOf_lt_length hsibdec hm
                have hne : i ≠ idx := fun he => side_no_self hsibdec hsibre
                  hsibtwf hn (by rw [hp]; exact not_snoc_prefix_self p0 (!b)) k
                  (he ▸ hm)
                exact hfr i hilt hne
            · refine twf_mkNode.mpr ⟨?_, hsibre, ?_, hsibtwf⟩
              · exact rootExt_of_prefix (by rw [rootPfxD_mkNode]; exact hbp)
              · refine twf_mkNode.mpr ⟨?_, by cases toRight p pc <;> rfl,
                  hcbtwf, by cases toRight p pc <;> rfl⟩
                exact rootExt_of_prefix (by simpa [rootPfxD] using hpcd)
            · simp [List.length_set]
          · -- neither contains the other: create a branching node
            have hPC' : pContains p pc = false := by simpa using hPC
            have hbpp : lcp p pc <+: p := lcp_prefix_left p pc
            have hbppc : lcp p pc <+: pc := lcp_prefix_right p pc
            have hbp_ne_p : lcp p pc ≠ p := by
              intro he
              have hx : pContains p pc = true := pContains_iff.mpr (he ▸ hbppc)
              rw [hPC'] at hx
              cases hx
            have hbp_ne_pc : lcp p pc ≠ pc := by
              intro he
              have hx : pContains pc p = true := pContains_iff.mpr (he ▸ hbpp)
              rw [hEnter'] at hx
              cases hx
            have hprp : lcp p pc ++ [toRight (lcp p pc) p] <+: p :=
              snoc_toRight_prefix hbpp hbp_ne_p
            have hdiv := lcp_diverge hbp_ne_p hbp_ne_pc
            have hprpc : lcp p pc ++ [!toRight (lcp p pc) p] <+: pc := by
              have hx : toRight (lcp p pc) pc = !toRight (lcp p pc) p := by
                rw [hdiv, Bool.not_not]
              have hs := snoc_toRight_prefix hbppc hbp_ne_pc
              rw [hx] at hs
              exact hs
            have hbpb : p0 ++ [b] <+: lcp p pc := lcp_common hbp hpcext
            have hdir := gdfi_newbranch hn (by rw [hp]; exact hpp)
              (by rw [hp, hbr]; exact hcbl') hcn (by rw [hcnp]; exact hEnter')
              (by rw [hcnp]; exact hPC')
            rw [hp, hbr, hcnp] at hdir
            have hstop := findInsertIdx_stop (f := f) hdir
              (by intro c' b' h; cases h)
            have hins := entry_insert_newbranch hn hidxlt hcbl' p (lcp p pc) v
              (toRight (lcp p pc) p)
            have hidx2 : idx <
                (t ++ [(⟨lcp p pc, none, none, none⟩ : Node T)] ++
                  [(⟨p, some v, none, none⟩ : Node T)]).length := by
              simp
              omega
            have hslot_idx :
                ((((t ++ [(⟨lcp p pc, none, none, none⟩ : Node T)] ++
                  [(⟨p, some v, none, none⟩ : Node T)]).set idx
                  (setLink n t.length b)).set t.length
                  (setLink ⟨lcp p pc, none, none, none⟩ (t.length + 1)
                    (toRight (lcp p pc) p))).set t.length
                  (setLink (setLink ⟨lcp p pc, none, none, none⟩
                    (t.length + 1) (toRight (lcp p pc) p)) c
                    (!toRight (lcp p pc) p)))[idx]? =
                some (setLink n t.length b) := by
              rw [List.getElem?_set_ne (by omega)]
              rw [List.getElem?_set_ne (by omega)]
              exact List.getElem?_set_self hidx2
            have hfr : ∀ j, j < t.length → j ≠ idx →
                ((((t ++ [(⟨lcp p pc, none, none, none⟩ : Node T)] ++
                  [(⟨p, some v, none, none⟩ : Node T)]).set idx
                  (setLink n t.length b)).set t.length
                  (setLink ⟨lcp p pc, none, none, none⟩ (t.length + 1)
                    (toRight (lcp p pc) p))).set t.length
                  (setLink (setLink ⟨lcp p pc, none, none, none⟩
                    (t.length + 1) (toRight (lcp p pc) p)) c
                    (!toRight (lcp p pc) p)))[j]? = t[j]? := by
              intro j hj hne
              rw [List.getElem?_set_ne (by omega)]
              rw [List.getElem?_set_ne (by omega)]
              rw [List.getElem?_set_ne (fun he => hne he.symm)]
              rw [List.getElem?_append_left (by simp; omega)]
              exact List.getElem?_append_left hj
            refine ⟨_, none,
              mkNode idx p0 v0 b
                (mkNode t.length (lcp p pc) none (toRight (lcp p pc) p)
                  (PTree.node (t.length + 1) p (some v) .nil .nil)
                  (PTree.node c pc pcv pcl pcr)) sib,
              idx, n, setLink n t.length b,
              ?_, ?_, ?_, childIdx_mkNode .., rootPfxD_mkNode .., ?_, hn,
              hslot_idx, setLink_pfx .., by rw [hp], hfr⟩
            · rw [show (do
                  let r ← findInsertIdx t p (f + 1) idx
                  entry_insert t p r.1 r.2 v) =
                  entry_insert t p idx
                    (.NewBranch (lcp p pc) b (toRight (lcp p pc) p)) v
                  from by rw [hstop]; rfl]
              exact hins
            · refine decodes_mkNode.mpr ⟨setLink n t.length b, hslot_idx,
                (setLink_pfx ..).trans hp, (setLink_value ..).trans hv,
                ?_, ?_, ?_, ?_⟩
              · rw [childLink_setLink_same, childIdx_mkNode]
              · rw [childLink_setLink_other]
                exact hsibl
              · refine decodes_mkNode.mpr
                  ⟨setLink (setLink ⟨lcp p pc, none, none, none⟩
                    (t.length + 1) (toRight (lcp p pc) p)) c
                    (!toRight (lcp p pc) p),
                    List.getElem?_set_self (by simp), (setLink_pfx ..).trans
                    (setLink_pfx ..), (setLink_value ..).trans
                    (setLink_value ..), ?_, ?_, ?_, ?_⟩
                · have h1 := childLink_setLink_other
                    (setLink (⟨lcp p pc, none, none, none⟩ : Node T)
                      (t.length + 1) (toRight (lcp p pc) p)) c
                    (!toRight (lcp p pc) p)
                  rw [Bool.not_not] at h1
                  rw [h1, childLink_setLink_same, childIdx]
                · rw [childLink_setLink_same]
                  rfl
                · refine decodes_node.mpr ⟨⟨p, some v, none, none⟩, ?_, rfl,
                    rfl, rfl, rfl, rfl, rfl⟩
                  rw [List.getElem?_set_ne (by omega)]
                  rw [List.getElem?_set_ne (by omega)]
                  rw [List.getElem?_set_ne (by omega)]
                  have h2 := List.getElem?_concat_length
                    (t ++ [(⟨lcp p pc, none, none, none⟩ : Node T)])
                    (⟨p, some v, none, none⟩ : Node T)
                  simpa using h2
                · refine decodes_frame ?_ hcbdec
                  intro i k hm
                  have hilt : i < t.length := nodesOf_lt_length hcbdec hm
                  have hne : i ≠ idx := fun he => side_no_self hcbdec hcbre
                    hcbtwf hn (by rw [hp]; exact not_snoc_prefix_self p0 b) k
                    (he ▸ hm)
                  exact hfr i hilt hne
              · refine decodes_frame ?_ hsibdec
                intro i k hm
                have hilt : i < t.length := nodesOf_lt_length hsibdec hm
                have hne : i ≠ idx := fun he => side_no_self hsibdec hsibre
                  hsibtwf hn (by rw [hp]; exact not_snoc_prefix_self p0 (!b)) k
                  (he ▸ hm)
                exact hfr i hilt hne
            · refine twf_mkNode.mpr ⟨?_, hsibre, ?_, hsibtwf⟩
              · exact rootExt_of_prefix (by rw [rootPfxD_mkNode]; exact hbpb)
              · refine twf_mkNode.mpr ⟨?_, ?_, by simp [twf, rootExt],
                  hcbtwf⟩
                · exact rootExt_of_prefix (by simpa [rootPfxD] using hprp)
                · exact rootExt_of_prefix (by simpa [rootPfxD] using hprpc)
            · simp [List.length_set]

/-- On an arena satisfying the invariant, a full insertion succeeds and the
invariant persists. -/
theorem insertTable_some_inv {T : Type} [DecidableEq T] {t : Table T}
    (p : Pfx) (v : T) (hinv : TableInv t) :
    ∃ t' old, insertTable t p v = some (t', old) ∧ TableInv t' := by
  obtain ⟨s, hdec, htwf, hidx, hroot⟩ := hinv
  have hcont : rootPfxD s <+: p := by
    rw [hroot]
    exact List.nil_prefix
  have hfuel : p.length + 1 - (rootPfxD s).length ≤ p.length + 1 := by omega
  obtain ⟨t', old, s', i0, n0, n0', hres, hdec', htwf', hcidx', hroot', _⟩ :=
    insert_descend p v (sizeT s) s (p.length + 1) 0 le_rfl hdec htwf hidx
      hcont hfuel
  exact ⟨t', old, hres, s', hdec', htwf', hcidx', by rw [hroot', hroot]⟩

/-- Every arena built by the construction API satisfies the invariant. -/
theorem reachable_inv {T : Type} [DecidableEq T] {t : Table T}
    (h : Reachable t) : TableInv t := by
  induction h with
  | empty =>
    refine ⟨PTree.node 0 pZero none .nil .nil, ?_, rfl, rfl, rfl⟩
    exact decodes_node.mpr
      ⟨⟨pZero, none, none, none⟩, rfl, rfl, rfl, rfl, rfl, rfl, rfl⟩
  | step hr hins ih =>
    obtain ⟨t2, old2, hres, hinv2⟩ := insertTable_some_inv _ _ ih
    rw [hins] at hres
    obtain ⟨rfl, rfl⟩ : _ ∧ _ := by
      have := Option.some_inj.mp hres
      exact ⟨(Prod.mk.injEq .. ▸ this).1.symm, (Prod.mk.injEq .. ▸ this).2.symm⟩
    exact hinv2

/-- C3: for every map obtained from any sequence of insert operations, the
explicit-stack depth-first iterator of `Iter::next` (pop an index, push the
right child then the left child, yield the entry when the popped node holds
a value) yields its entries in strictly ascending lexicographic order of
prefix. -/
theorem c3_iter_sorted {T : Type} [DecidableEq T] {t : Table T}
    (hre : Reachable t) (fuel : Nat) (res : List (Pfx × T))
    (hrun : iterAux t fuel [0] = some res) :
    res.Pairwise (fun a b => pfxLt a.1 b.1 = true) := by
  obtain ⟨s, hdec, htwf, hidx, hroot⟩ := reachable_inv hre
  have hfor := iterAux_forest (t := t) (sizeF [s]) [s] [0] rfl
    (List.Forall₂.cons hidx List.Forall₂.nil)
    (by intro u hu; rw [List.mem_singleton] at hu; exact hu ▸ hdec)
  have hres : res = (List.map treeElems [s]).flatten := iterAux_det hrun hfor
  rw [hres]
  simpa using treeElems_sorted htwf

/-- Arena reached by inserting the key `[true]` with value 5 into a fresh
map; used as concrete input by several witnesses. -/
def sampleTable : Table Nat :=
  [⟨[], none, none, some 1⟩, ⟨[true], some 5, none, none⟩]

theorem c3_iter_sorted_witness :
    List.Pairwise (fun (a b : Pfx × Nat) => pfxLt a.1 b.1 = true)
      [(([true] : Pfx), 5)] :=
  c3_iter_sorted (t := sampleTable)
    (@Reachable.step Nat (emptyTable Nat) [true] 5 sampleTable none
      Reachable.empty (by decide))
    2 [(([true] : Pfx), 5)] (by decide)

theorem childOk_some {T : Type} {t : Table T} {q : Pfx} {c : Nat}
    (h : childOk t q (some c) = true) :
    ∃ cn, t[c]? = some cn ∧ q <+: cn.pfx := by
  have h' : (match t[c]? with
      | none => false
      | some cn => List.isPrefixOf q cn.pfx) = true := h
  cases hcn : t[c]? with
  | none => rw [hcn] at h'; cases h'
  | some cn =>
    rw [hcn] at h'
    exact ⟨cn, rfl, List.isPrefixOf_iff_prefix.mp h'⟩

theorem arenaInv_child {T : Type} {t : Table T} (hinv : arenaInv t = true)
    {i : Nat} {n : Node T} (hn : t[i]? = some n) {b : Bool} {c : Nat}
    (hc : childLink n b = some c) :
    ∃ cn, t[c]? = some cn ∧ n.pfx ++ [b] <+: cn.pfx := by
  have hmem : n ∈ t := by
    obtain ⟨hlt, he⟩ := List.getElem?_eq_some.mp hn
    exact he ▸ List.getElem_mem hlt
  have hok := List.all_eq_true.mp hinv n hmem
  simp only [Bool.and_eq_true] at hok
  cases b with
  | false =>
    have h1 := hok.1
    rw [show n.left = some c from hc] at h1
    exact childOk_some h1
  | true =>
    have h1 := hok.2
    rw [show n.right = some c from hc] at h1
    exact childOk_some h1

/-- C1: on an arena satisfying the first-order tree invariants, for a node
`cur` whose key contains the target, `get_direction_for_insert` returns
`Reached` when the keys are equal; otherwise, with the side computed by
`to_right`, it returns `NewLeaf` when no child sits on that side, `Enter`
when the child's key contains the target, `NewChild` when the target
contains the child's key (recording the side the old child takes), and
otherwise `NewBranch` at the longest common prefix, placing the new node on
the side `to_right` assigns it. -/
theorem c1_direction_for_insert {T : Type} (t : Table T) (cur : Nat)
    (target : Pfx) (n : Node T) (hinv : arenaInv t = true)
    (hn : t[cur]? = some n) (hcont : pContains n.pfx target = true) :
    (n.pfx = target →
      get_direction_for_insert t cur target = some .Reached) ∧
    (n.pfx ≠ target →
      (childLink n (toRight n.pfx target) = none →
        get_direction_for_insert t cur target =
          some (.NewLeaf (toRight n.pfx target))) ∧
      (∀ c, childLink n (toRight n.pfx target) = some c →
        ∃ cn, t[c]? = some cn ∧
          get_direction_for_insert t cur target = some (
            if pContains cn.pfx target then
              .Enter c (toRight n.pfx target)
            else if pContains target cn.pfx then
              .NewChild (toRight n.pfx target) (toRight target cn.pfx)
            else
              .NewBranch (lcp target cn.pfx) (toRight n.pfx target)
                (toRight (lcp target cn.pfx) target)))) := by
  refine ⟨fun hp => gdfi_reached hn hp, fun hp => ⟨?_, ?_⟩⟩
  · intro hcl
    exact gdfi_newleaf hn hp hcl
  · intro c hc
    obtain ⟨cn, hcn, _⟩ := arenaInv_child hinv hn hc
    refine ⟨cn, hcn, ?_⟩
    cases h1 : pContains cn.pfx target with
    | true => simp [h1, gdfi_enter hn hp hc hcn h1]
    | false =>
      cases h2 : pContains target cn.pfx with
      | true => simp [h1, h2, gdfi_newchild hn hp hc hcn h1 h2]
      | false => simp [h1, h2, gdfi_newbranch hn hp hc hcn h1 h2]

theorem c1_direction_for_insert_witness :
    get_direction_for_insert sampleTable 0 [true] =
      some (DirectionForInsert.Enter 1 true) := by
  obtain ⟨h1, h2⟩ := c1_direction_for_insert sampleTable 0 [true]
    ⟨[], none, none, some 1⟩ (by decide) (by decide) (by decide)
  obtain ⟨hleaf, hchild⟩ := h2 (by decide)
  obtain ⟨cn, hcn, heq⟩ := hchild 1 (by decide)
  have hcn' : cn = ⟨[true], some 5, none, none⟩ := by
    have hx : sampleTable[1]? = some ⟨[true], some 5, none, none⟩ := by decide
    rw [hx] at hcn
    exact (Option.some_inj.mp hcn).symm
  subst hcn'
  rw [heq]
  decide

/-- Full inversion of `get_direction_for_insert`. -/
theorem gdfi_cases {T : Type} {t : Table T} {idx : Nat} {p : Pfx}
    {d : DirectionForInsert}
    (h : get_direction_for_insert t idx p = some d) :
    ∃ n, t[idx]? = some n ∧
      ((n.pfx = p ∧ d = .Reached) ∨
       (n.pfx ≠ p ∧
         ((childLink n (toRight n.pfx p) = none ∧
            d = .NewLeaf (toRight n.pfx p)) ∨
          (∃ c cn, childLink n (toRight n.pfx p) = some c ∧
            t[c]? = some cn ∧
            ((pContains cn.pfx p = true ∧ d = .Enter c (toRight n.pfx p)) ∨
             (pContains cn.pfx p = false ∧ pContains p cn.pfx = true ∧
               d = .NewChild (toRight n.pfx p) (toRight p cn.pfx)) ∨
             (pContains cn.pfx p = false ∧ pContains p cn.pfx = false ∧
               d = .NewBranch (lcp p cn.pfx) (toRight n.pfx p)
                 (toRight (lcp p cn.pfx) p))))))) := by
  cases hn : t[idx]? with
  | none => rw [get_direction_for_insert, hn] at h; cases h
  | some n =>
    refine ⟨n, rfl, ?_⟩
    by_cases hp : n.pfx = p
    · rw [gdfi_reached hn hp] at h
      exact Or.inl ⟨hp, (Option.some_inj.mp h).symm⟩
    · refine Or.inr ⟨hp, ?_⟩
      cases hcl : childLink n (toRight n.pfx p) with
      | none =>
        rw [gdfi_newleaf hn hp hcl] at h
        exact Or.inl ⟨rfl, (Option.some_inj.mp h).symm⟩
      | some c =>
        cases hcn : t[c]? with
        | none => simp [get_direction_for_insert, hn, hp, hcl, hcn] at h
        | some cn =>
          refine Or.inr ⟨c, cn, rfl, hcn, ?_⟩
          cases h1 : pContains cn.pfx p with
          | true =>
            rw [gdfi_enter hn hp hcl hcn h1] at h
            exact Or.inl ⟨rfl, (Option.some_inj.mp h).symm⟩
          | false =>
            cases h2 : pContains p cn.pfx with
            | true =>
              rw [gdfi_newchild hn hp hcl hcn h1 h2] at h
              exact Or.inr (Or.inl ⟨rfl, rfl, (Option.some_inj.mp h).symm⟩)
            | false =>
              rw [gdfi_newbranch hn hp hcl hcn h1 h2] at h
              exact Or.inr (Or.inr ⟨rfl, rfl, (Option.some_inj.mp h).symm⟩)

/-- C2: consuming a recorded direction, insertion sets only the existing
node's value at `Reached` (the arena does not grow, no links change, and
the previous value is returned); `NewLeaf` and `NewChild` append exactly
one node; `NewBranch` appends exactly two — a valueless branching node at
the branching key whose `prefix_right` side holds the new valued node and
whose opposite side holds the old child — and no pre-existing node is ever
removed or relocated: every index valid before stays valid with the same
key. -/
theorem c2_insert_effects {T : Type} [DecidableEq T] (t : Table T) (p : Pfx)
    (idx : Nat) (dir : DirectionForInsert) (v : T)
    (hdir : get_direction_for_insert t idx p = some dir)
    (hne : ∀ c b, dir ≠ .Enter c b) :
    ∃ (t' : Table T) (old : Option T),
      entry_insert t p idx dir v = some (t', old) ∧
      (∀ (j : Nat) (nj : Node T), t[j]? = some nj →
        ∃ nj', t'[j]? = some nj' ∧ nj'.pfx = nj.pfx) ∧
      (dir = .Reached →
        t'.length = t.length ∧
        ∃ n, t[idx]? = some n ∧ old = n.value ∧
          t'[idx]? = some { n with value := some v } ∧
          ∀ j, j ≠ idx → t'[j]? = t[j]?) ∧
      (∀ b, dir = .NewLeaf b → t'.length = t.length + 1 ∧ old = none) ∧
      (∀ b cb, dir = .NewChild b cb →
        t'.length = t.length + 1 ∧ old = none) ∧
      (∀ bp b pr, dir = .NewBranch bp b pr →
        t'.length = t.length + 2 ∧ old = none ∧
        (∃ bn, t'[t.length]? = some bn ∧ bn.pfx = bp ∧ bn.value = none ∧
          childLink bn pr = some (t.length + 1) ∧
          ∃ c n, t[idx]? = some n ∧ childLink n b = some c ∧
            childLink bn (!pr) = some c) ∧
        (∃ nn, t'[t.length + 1]? = some nn ∧ nn.pfx = p ∧
          nn.value = some v)) := by
  obtain ⟨n, hn, hcase⟩ := gdfi_cases hdir
  have hidxlt : idx < t.length := (List.getElem?_eq_some.mp hn).1
  cases dir with
  | Enter c b => exact absurd rfl (hne c b)
  | Reached =>
    refine ⟨t.set idx { n with value := some v }, n.value,
      entry_insert_reached hn p v, ?_, ?_, by simp, by simp, by simp⟩
    · intro j nj hj
      by_cases hje : j = idx
      · subst hje
        obtain rfl : nj = n := by
          rw [hj] at hn
          exact Option.some_inj.mp hn
        exact ⟨{ nj with value := some v }, List.getElem?_set_self hidxlt, rfl⟩
      · exact ⟨nj, by
          rw [List.getElem?_set_ne (fun he => hje he.symm)]; exact hj, rfl⟩
    · intro _
      refine ⟨by simp [List.length_set], n, hn, rfl,
        List.getElem?_set_self hidxlt, ?_⟩
      intro j hj
      exact List.getElem?_set_ne (fun he => hj he.symm)
  | NewLeaf b =>
    refine ⟨_, none, entry_insert_newleaf hn hidxlt p v b, ?_, by simp, ?_,
      by simp, by simp⟩
    · intro j nj hj
      have hjlt : j < t.length := (List.getElem?_eq_some.mp hj).1
      by_cases hje : j = idx
      · subst hje
        obtain rfl : nj = n := by
          rw [hj] at hn
          exact Option.some_inj.mp hn
        exact ⟨setLink nj t.length b,
          List.getElem?_set_self (by simp; omega), setLink_pfx ..⟩
      · refine ⟨nj, ?_, rfl⟩
        rw [List.getElem?_set_ne (fun he => hje he.symm)]
        rw [List.getElem?_append_left hjlt]
        exact hj
    · intro b' hb'
      cases hb'
      exact ⟨by simp [List.length_set], rfl⟩
  | NewChild b cb =>
    obtain ⟨c, hc⟩ : ∃ c, childLink n b = some c := by
      rcases hcase with ⟨_, he⟩ | ⟨hp, hrest⟩
      · cases he
      · rcases hrest with ⟨_, he⟩ | ⟨c, cn, hcl, hcn, hsub⟩
        · cases he
        · rcases hsub with ⟨_, he⟩ | ⟨_, _, he⟩ | ⟨_, _, he⟩
          · cases he
          · injection he with h1 h2
            subst h1
            exact ⟨c, hcl⟩
          · cases he
    refine ⟨_, none, entry_insert_newchild hn hidxlt hc p v cb, ?_, by simp,
      by simp, ?_, by simp⟩
    · intro j nj hj
      have hjlt : j < t.length := (List.getElem?_eq_some.mp hj).1
      by_cases hje : j = idx
      · subst hje
        obtain rfl : nj = n := by
          rw [hj] at hn
          exact Option.some_inj.mp hn
        refine ⟨setLink nj t.length b, ?_, setLink_pfx ..⟩
        rw [List.getElem?_set_ne (by omega)]
        exact List.getElem?_set_self (by simp; omega)
      · refine ⟨nj, ?_, rfl⟩
        rw [List.getElem?_set_ne (by omega)]
        rw [List.getElem?_set_ne (fun he => hje he.symm)]
        rw [List.getElem?_append_left hjlt]
        exact hj
    · intro b' cb' hb'
      cases hb'
      exact ⟨by simp [List.length_set], rfl⟩
  | NewBranch bp b pr =>
    obtain ⟨c, hc⟩ : ∃ c, childLink n b = some c := by
      rcases hcase with ⟨_, he⟩ | ⟨hp, hrest⟩
      · cases he
      · rcases hrest with ⟨_, he⟩ | ⟨c, cn, hcl, hcn, hsub⟩
        · cases he
        · rcases hsub with ⟨_, he⟩ | ⟨_, _, he⟩ | ⟨_, _, he⟩
          · cases he
          · cases he
          · injection he with h1 h2 h3
            subst h2
            exact ⟨c, hcl⟩
    refine ⟨_, none, entry_insert_newbranch hn hidxlt hc p bp v pr, ?_,
      by simp, by simp, by simp, ?_⟩
    · intro j nj hj
      have hjlt : j < t.length := (List.getElem?_eq_some.mp hj).1
      by_cases hje : j = idx
      · subst hje
        obtain rfl : nj = n := by
          rw [hj] at hn
          exact Option.some_inj.mp hn
        refine ⟨setLink nj t.length b, ?_, setLink_pfx ..⟩
        rw [List.getElem?_set_ne (by omega)]
        rw [List.getElem?_set_ne (by omega)]
        exact List.getElem?_set_self (by simp; omega)
      · refine ⟨nj, ?_, rfl⟩
        rw [List.getElem?_set_ne (by omega)]
        rw [List.getElem?_set_ne (by omega)]
        rw [List.getElem?_set_ne (fun he => hje he.symm)]
        rw [List.getElem?_append_left (by simp; omega)]
        rw [List.getElem?_append_left hjlt]
        exact hj
    · intro bp' b' pr' hb'
      cases hb'
      refine ⟨by simp [List.length_set], rfl, ?_, ?_⟩
      · refine ⟨setLink (setLink ⟨bp, none, none, none⟩ (t.length + 1) pr) c
          (!pr), List.getElem?_set_self (by simp), (setLink_pfx ..).trans
          (setLink_pfx ..), (setLink_value ..).trans (setLink_value ..),
          ?_, c, n, hn, hc, childLink_setLink_same ..⟩
        have h1 := childLink_setLink_other
          (setLink (⟨bp, none, none, none⟩ : Node T) (t.length + 1) pr) c (!pr)
        rw [Bool.not_not] at h1
        rw [h1]
        exact childLink_setLink_same ..
      · refine ⟨⟨p, some v, none, none⟩, ?_, rfl, rfl⟩
        rw [List.getElem?_set_ne (by omega)]
        rw [List.getElem?_set_ne (by omega)]
        rw [List.getElem?_set_ne (by omega)]
        have h2 := List.getElem?_concat_length
          (t ++ [(⟨bp, none, none, none⟩ : Node T)])
          (⟨p, some v, none, none⟩ : Node T)
        simpa using h2

theorem c2_insert_effects_witness :
    ∃ (t' : Table Nat) (old : Option Nat),
      entry_insert sampleTable [false] 0 (.NewLeaf false) 7 =
        some (t', old) ∧
      t'.length = sampleTable.length + 1 ∧ old = none := by
  obtain ⟨t', old, h1, h2, h3, h4, h5, h6⟩ := c2_insert_effects sampleTable
    [false] 0 (.NewLeaf false) 7 (by decide) (fun c b h => by cases h)
  exact ⟨t', old, h1, (h4 false rfl).1, (h4 false rfl).2⟩

/-- C8: a view at a virtual location reports no value, rejects value
mutation and removal without touching the arena, and exposes its single
real child exactly on the side `to_right(virtual_prefix, child_prefix)`
dictates, the opposite side being empty. -/
theorem c8_virtual_views {T : Type} (t : Table T) (p : Pfx) (c : Nat)
    (n : Node T) (hn : t[c]? = some n) :
    viewValue t (.virt p c) = some none ∧
    viewPrefixValue t (.virt p c) = some none ∧
    viewValueMut t (.virt p c) = some none ∧
    viewPrefixValueMut t (.virt p c) = some none ∧
    viewRemove t (.virt p c) = some (none, t) ∧
    viewLeft t (.virt p c) =
      some (if toRight p n.pfx then none else some (.node c)) ∧
    viewRight t (.virt p c) =
      some (if toRight p n.pfx then some (.node c) else none) := by
  refine ⟨rfl, rfl, rfl, rfl, rfl, ?_, ?_⟩
  · cases htr : toRight p n.pfx <;> simp [viewLeft, hn, htr]
  · cases htr : toRight p n.pfx <;> simp [viewRight, hn, htr]

theorem c8_virtual_views_witness :
    viewValue sampleTable (.virt [true] 1) = some (none : Option Nat) ∧
    viewRemove sampleTable (.virt [true] 1) = some (none, sampleTable) ∧
    viewLeft sampleTable (.virt [true] 1) = some (some (.node 1)) ∧
    viewRight sampleTable (.virt [true] 1) = some none := by
  obtain ⟨h1, h2, h3, h4, h5, h6, h7⟩ := c8_virtual_views sampleTable [true]
    1 ⟨[true], some 5, none, none⟩ (by decide)
  refine ⟨h1, h5, ?_, ?_⟩
  · rw [h6]
    decide
  · rw [h7]
    decide

theorem gd_reached {T : Type} {t : Table T} {idx : Nat} {n : Node T}
    {q : Pfx} (hn : t[idx]? = some n) (hp : n.pfx = q) :
    get_direction t idx q = some .Reached := by
  simp [get_direction, hn, hp]

theorem gd_enter {T : Type} {t : Table T} {idx c : Nat} {n cn : Node T}
    {q : Pfx} (hn : t[idx]? = some n) (hp : n.pfx ≠ q)
    (hcl : childLink n (toRight n.pfx q) = some c) (hcn : t[c]? = some cn)
    (h1 : pContains cn.pfx q = true) :
    get_direction t idx q = some (.Enter c (toRight n.pfx q)) := by
  simp [get_direction, hn, hp, hcl, hcn, h1]

theorem gd_missing_nochild {T : Type} {t : Table T} {idx : Nat} {n : Node T}
    {q : Pfx} (hn : t[idx]? = some n) (hp : n.pfx ≠ q)
    (hcl : childLink n (toRight n.pfx q) = none) :
    get_direction t idx q = some .Missing := by
  simp [get_direction, hn, hp, hcl]

theorem gd_missing_nocontain {T : Type} {t : Table T} {idx c : Nat}
    {n cn : Node T} {q : Pfx} (hn : t[idx]? = some n) (hp : n.pfx ≠ q)
    (hcl : childLink n (toRight n.pfx q) = some c) (hcn : t[c]? = some cn)
    (h1 : pContains cn.pfx q = false) :
    get_direction t idx q = some .Missing := by
  simp [get_direction, hn, hp, hcl, hcn, h1]

/-- Full inversion of `get_direction`. -/
theorem gd_cases {T : Type} {t : Table T} {idx : Nat} {q : Pfx}
    {d : Direction} (h : get_direction t idx q = some d) :
    ∃ n, t[idx]? = some n ∧
      ((n.pfx = q ∧ d = .Reached) ∨
       (n.pfx ≠ q ∧
         (d = .Missing ∨
          ∃ c cn, childLink n (toRight n.pfx q) = some c ∧
            t[c]? = some cn ∧ pContains cn.pfx q = true ∧
            d = .Enter c (toRight n.pfx q)))) := by
  cases hn : t[idx]? with
  | none => rw [get_direction, hn] at h; cases h
  | some n =>
    refine ⟨n, rfl, ?_⟩
    by_cases hp : n.pfx = q
    · rw [gd_reached hn hp] at h
      exact Or.inl ⟨hp, (Option.some_inj.mp h).symm⟩
    · refine Or.inr ⟨hp, ?_⟩
      cases hcl : childLink n (toRight n.pfx q) with
      | none =>
        rw [gd_missing_nochild hn hp hcl] at h
        exact Or.inl (Option.some_inj.mp h).symm
      | some c =>
        cases hcn : t[c]? with
        | none => simp [get_direction, hn, hp, hcl, hcn] at h
        | some cn =>
          cases h1 : pContains cn.pfx q with
          | true =>
            rw [gd_enter hn hp hcl hcn h1] at h
            exact Or.inr ⟨c, cn, rfl, hcn, h1, (Option.some_inj.mp h).symm⟩
          | false =>
            rw [gd_missing_nocontain hn hp hcl hcn h1] at h
            exact Or.inl (Option.some_inj.mp h).symm

/-- On an arena with valid child links, `get_direction` never hits an
out-of-range index. -/
theorem gd_isSome {T : Type} {t : Table T} (hinv : arenaInv t = true)
    {idx : Nat} {n : Node T} (hn : t[idx]? = some n) (q : Pfx) :
    ∃ d, get_direction t idx q = some d := by
  by_cases hp : n.pfx = q
  · exact ⟨.Reached, gd_reached hn hp⟩
  · cases hcl : childLink n (toRight n.pfx q) with
    | none => exact ⟨.Missing, gd_missing_nochild hn hp hcl⟩
    | some c =>
      obtain ⟨cn, hcn, _⟩ := arenaInv_child hinv hn hcl
      cases h1 : pContains cn.pfx q with
      | true => exact ⟨_, gd_enter hn hp hcl hcn h1⟩
      | false => exact ⟨.Missing, gd_missing_nocontain hn hp hcl hcn h1⟩

/-- On an arena with valid child links, `get_direction_for_insert` never
hits an out-of-range index. -/
theorem gdfi_isSome {T : Type} {t : Table T} (hinv : arenaInv t = true)
    {idx : Nat} {n : Node T} (hn : t[idx]? = some n) (q : Pfx) :
    ∃ d, get_direction_for_insert t idx q = some d := by
  by_cases hp : n.pfx = q
  · exact ⟨.Reached, gdfi_reached hn hp⟩
  · cases hcl : childLink n (toRight n.pfx q) with
    | none => exact ⟨_, gdfi_newleaf hn hp hcl⟩
    | some c =>
      obtain ⟨cn, hcn, _⟩ := arenaInv_child hinv hn hcl
      cases h1 : pContains cn.pfx q with
      | true => exact ⟨_, gdfi_enter hn hp hcl hcn h1⟩
      | false =>
        cases h2 : pContains q cn.pfx with
        | true => exact ⟨_, gdfi_newchild hn hp hcl hcn h1 h2⟩
        | false => exact ⟨_, gdfi_newbranch hn hp hcl hcn h1 h2⟩

/-- Data of an `Enter` step of `get_direction` on a well-formed arena: the
entered child exists, its key still contains the target and is strictly
longer than the current key, which itself is a prefix of the target. -/
theorem gd_enter_step {T : Type} {t : Table T} (hinv : arenaInv t = true)
    {idx c : Nat} {b : Bool} {q : Pfx} {n : Node T} (hn : t[idx]? = some n)
    (h : get_direction t idx q = some (.Enter c b)) :
    ∃ cn, t[c]? = some cn ∧ cn.pfx <+: q ∧
      n.pfx.length + 1 ≤ cn.pfx.length ∧ n.pfx <+: q := by
  obtain ⟨n', hn', hc⟩ := gd_cases h
  obtain rfl : n = n' := by
    rw [hn] at hn'
    exact Option.some_inj.mp hn'
  rcases hc with ⟨_, he⟩ | ⟨hp, hrest⟩
  · cases he
  · rcases hrest with he | ⟨c', cn, hcl, hcn, h1, he⟩
    · cases he
    · injection he with h2 h3
      subst h2 h3
      obtain ⟨cn', hcn', hext⟩ := arenaInv_child hinv hn hcl
      obtain rfl : cn = cn' := by
        rw [hcn] at hcn'
        exact Option.some_inj.mp hcn'
      have hq : cn.pfx <+: q := pContains_iff.mp h1
      have hlen : n.pfx.length + 1 ≤ cn.pfx.length := by
        have := hext.length_le
        simp at this
        omega
      exact ⟨cn, hcn, hq, hlen,
        ((List.prefix_append n.pfx _).trans hext).trans hq⟩

/-- Data of an `Enter` step of `get_direction_for_insert` on a well-formed
arena. -/
theorem gdfi_enter_step {T : Type} {t : Table T} (hinv : arenaInv t = true)
    {idx c : Nat} {b : Bool} {q : Pfx} {n : Node T} (hn : t[idx]? = some n)
    (h : get_direction_for_insert t idx q = some (.Enter c b)) :
    ∃ cn, t[c]? = some cn ∧ cn.pfx <+: q ∧
      n.pfx.length + 1 ≤ cn.pfx.length ∧ n.pfx <+: q := by
  obtain ⟨n', hn', hc⟩ := gdfi_cases h
  obtain rfl : n = n' := by
    rw [hn] at hn'
    exact Option.some_inj.mp hn'
  rcases hc with ⟨_, he⟩ | ⟨hp, hrest⟩
  · cases he
  · rcases hrest with ⟨_, he⟩ | ⟨c', cn, hcl, hcn, hsub⟩
    · cases he
    · rcases hsub with ⟨h1, he⟩ | ⟨_, _, he⟩ | ⟨_, _, he⟩
      · injection he with h2 h3
        subst h2 h3
        obtain ⟨cn', hcn', hext⟩ := arenaInv_child hinv hn hcl
        obtain rfl : cn = cn' := by
          rw [hcn] at hcn'
          exact Option.some_inj.mp hcn'
        have hq : cn.pfx <+: q := pContains_iff.mp h1
        have hlen : n.pfx.length + 1 ≤ cn.pfx.length := by
          have := hext.length_le
          simp at this
          omega
        exact ⟨cn, hcn, hq, hlen,
          ((List.prefix_append n.pfx _).trans hext).trans hq⟩
      · cases he
      · cases he

theorem viewFindExact_total {T : Type} {t : Table T}
    (hinv : arenaInv t = true) (q : Pfx) :
    ∀ (fuel idx : Nat) (n : Node T), t[idx]? = some n →
      q.length + 1 - n.pfx.length ≤ fuel → 1 ≤ fuel →
      (viewFindExact t q fuel idx).isSome := by
  intro fuel
  induction fuel with
  | zero => intro idx n hn h1 h2; omega
  | succ fuel ih =>
    intro idx n hn h1 _
    obtain ⟨d, hd⟩ := gd_isSome hinv hn q
    cases d with
    | Reached =>
      simp [viewFindExact, hd, hn]
    | Missing =>
      simp [viewFindExact, hd]
    | Enter c b =>
      obtain ⟨cn, hcn, hq, hlen, hnq⟩ := gd_enter_step hinv hn hd
      have hql := hq.length_le
      have hnl := hnq.length_le
      simp only [viewFindExact, Option.bind_eq_bind, hd, Option.some_bind]
      exact ih c cn hcn (by omega) (by omega)

theorem viewFind_total {T : Type} {t : Table T}
    (hinv : arenaInv t = true) (q : Pfx) :
    ∀ (fuel idx : Nat) (n : Node T), t[idx]? = some n →
      q.length + 1 - n.pfx.length ≤ fuel → 1 ≤ fuel →
      (viewFind t q fuel idx).isSome := by
  intro fuel
  induction fuel with
  | zero => intro idx n hn h1 h2; omega
  | succ fuel ih =>
    intro idx n hn h1 _
    obtain ⟨d, hd⟩ := gdfi_isSome hinv hn q
    cases d with
    | Reached => simp [viewFind, hd]
    | NewLeaf b => simp [viewFind, hd]
    | NewBranch bp b pr => simp [viewFind, hd]
    | NewChild b cb =>
      obtain ⟨n', hn', hc⟩ := gdfi_cases hd
      obtain rfl : n = n' := by
        rw [hn] at hn'
        exact Option.some_inj.mp hn'
      rcases hc with ⟨_, he⟩ | ⟨hp, hrest⟩
      · cases he
      · rcases hrest with ⟨_, he⟩ | ⟨c, cn, hcl, hcn, hsub⟩
        · cases he
        · rcases hsub with ⟨_, he⟩ | ⟨_, _, he⟩ | ⟨_, _, he⟩
          · cases he
          · injection he with h2 h3
            subst h2
            simp [viewFind, hd, get_child, hn, hcl]
          · cases he
    | Enter c b =>
      obtain ⟨cn, hcn, hq, hlen, hnq⟩ := gdfi_enter_step hinv hn hd
      have hql := hq.length_le
      have hnl := hnq.length_le
      simp only [viewFind, Option.bind_eq_bind, hd, Option.some_bind]
      exact ih c cn hcn (by omega) (by omega)

theorem findLpm_total {T : Type} {t : Table T}
    (hinv : arenaInv t = true) (q : Pfx) :
    ∀ (fuel idx : Nat) (best : Option Nat) (n : Node T), t[idx]? = some n →
      q.length + 1 - n.pfx.length ≤ fuel → 1 ≤ fuel →
      (findLpm t q fuel idx best).isSome := by
  intro fuel
  induction fuel with
  | zero => intro idx best n hn h1 h2; omega
  | succ fuel ih =>
    intro idx best n hn h1 _
    obtain ⟨d, hd⟩ := gd_isSome hinv hn q
    cases d with
    | Reached => simp [findLpm, hd, hn]
    | Missing => simp [findLpm, hd, hn]
    | Enter c b =>
      obtain ⟨cn, hcn, hq, hlen, hnq⟩ := gd_enter_step hinv hn hd
      have hql := hq.length_le
      have hnl := hnq.length_le
      simp only [findLpm, Option.bind_eq_bind, hn, Option.some_bind, hd]
      exact ih c _ cn hcn (by omega) (by omega)

theorem coverFrom_total {T : Type} {t : Table T}
    (hinv : arenaInv t = true) (q : Pfx) :
    ∀ (fuel idx : Nat) (n : Node T), t[idx]? = some n →
      q.length + 1 - n.pfx.length ≤ fuel → 1 ≤ fuel →
      (coverFrom t q fuel idx).isSome := by
  intro fuel
  induction fuel with
  | zero => intro idx n hn h1 h2; omega
  | succ fuel ih =>
    intro idx n hn h1 _
    obtain ⟨d, hd⟩ := gd_isSome hinv hn q
    cases d with
    | Reached => simp [coverFrom, hd]
    | Missing => simp [coverFrom, hd]
    | Enter c b =>
      obtain ⟨cn, hcn, hq, hlen, hnq⟩ := gd_enter_step hinv hn hd
      have hql := hq.length_le
      have hnl := hnq.length_le
      have hrec := ih c cn hcn (by omega) (by omega)
      simp only [coverFrom, Option.bind_eq_bind, hd, Option.some_bind, hcn]
      obtain ⟨res, hres⟩ := Option.isSome_iff_exists.mp hrec
      rw [hres]
      cases cn.value <;> simp

theorem childrenStart_total {T : Type} {t : Table T}
    (hinv : arenaInv t = true) (q : Pfx) :
    ∀ (fuel idx : Nat) (n : Node T), t[idx]? = some n →
      q.length + 1 - n.pfx.length ≤ fuel → 1 ≤ fuel →
      (childrenStart t q fuel idx).isSome := by
  intro fuel
  induction fuel with
  | zero => intro idx n hn h1 h2; omega
  | succ fuel ih =>
    intro idx n hn h1 _
    by_cases hp : n.pfx = q
    · simp [childrenStart, hn, hp]
    · cases hcl : childLink n (toRight n.pfx q) with
      | none => simp [childrenStart, hn, hp, hcl]
      | some c =>
        obtain ⟨cn, hcn, hext⟩ := arenaInv_child hinv hn hcl
        cases h2 : pContains cn.pfx q with
        | false =>
          cases h3 : pContains q cn.pfx with
          | true => simp [childrenStart, hn, hp, hcl, hcn, h2, h3]
          | false => simp [childrenStart, hn, hp, hcl, hcn, h2, h3]
        | true =>
          have hq : cn.pfx <+: q := pContains_iff.mp h2
          have hql := hq.length_le
          have hlen : n.pfx.length + 1 ≤ cn.pfx.length := by
            have := hext.length_le
            simp at this
            omega
          have hrec := ih c cn hcn (by omega) (by omega)
          simp [childrenStart, hn, hp, hcl, hcn, h2, hrec]

/-- C9: under the tree invariants every traversal loop terminates — the
view `find`, `find_exact` and `find_lpm` descents, the children
start-point search, and the cover walk all return within `q.length + 2`
steps, because each `Enter` step moves to an existing child whose key is
strictly longer yet still a prefix of the target. -/
theorem c9_traversals_terminate {T : Type} (t : Table T) (q : Pfx)
    (idx : Nat) (n : Node T) (hinv : arenaInv t = true)
    (hn : t[idx]? = some n) (hstart : n.pfx.length ≤ q.length) :
    (viewFind t q (q.length + 2) idx).isSome ∧
    (viewFindExact t q (q.length + 2) idx).isSome ∧
    (findLpm t q (q.length + 2) idx none).isSome ∧
    (childrenStart t q (q.length + 2) idx).isSome ∧
    (coverFrom t q (q.length + 2) idx).isSome :=
  ⟨viewFind_total hinv q _ idx n hn (by omega) (by omega),
   viewFindExact_total hinv q _ idx n hn (by omega) (by omega),
   findLpm_total hinv q _ idx none n hn (by omega) (by omega),
   childrenStart_total hinv q _ idx n hn (by omega) (by omega),
   coverFrom_total hinv q _ idx n hn (by omega) (by omega)⟩

theorem c9_traversals_terminate_witness :
    (viewFind sampleTable [true] 3 0).isSome ∧
    (viewFindExact sampleTable [true] 3 0).isSome ∧
    (findLpm sampleTable [true] 3 0 none).isSome ∧
    (childrenStart sampleTable [true] 3 0).isSome ∧
    (coverFrom sampleTable [true] 3 0).isSome :=
  c9_traversals_terminate sampleTable [true] 0 ⟨[], none, none, some 1⟩
    (by decide) (by decide) (by decide)

/-- The by-reference and by-mutable-reference iterators run in lockstep on
any arena and stack. -/
theorem iterMutAux_eq_iterAux {T : Type} (t : Table T) :
    ∀ (fuel : Nat) (stack : List Nat),
      iterMutAux t fuel stack = iterAux t fuel stack := by
  intro fuel
  induction fuel with
  | zero => intro stack; cases stack <;> rfl
  | succ f ih =>
    intro stack
    cases stack with
    | nil => rfl
    | cons cur rest =>
      simp only [iterAux, iterMutAux, Option.bind_eq_bind]
      cases hn : t[cur]? with
      | none => rfl
      | some n =>
        simp only [Option.some_bind]
        rw [ih]
        cases hv : n.value with
        | none => simp [hv]
        | some v => simp [hv]

/-- Arenas that decode the same forest drive the iterator identically. -/
theorem iterAux_eq_of_decode {T : Type} [DecidableEq T] :
    ∀ (fuel : Nat) (t t2 : Table T) (trs : List (PTree T))
      (stack : List Nat),
      List.Forall₂ (fun (i : Nat) (s : PTree T) => childIdx s = some i)
        stack trs →
      (∀ s ∈ trs, decodes t s = true) →
      (∀ s ∈ trs, decodes t2 s = true) →
      iterAux t fuel stack = iterAux t2 fuel stack := by
  intro fuel
  induction fuel with
  | zero => intro t t2 trs stack hf _ _; cases hf <;> rfl
  | succ f ih =>
    intro t t2 trs stack hf hdec hdec2
    cases hf with
    | nil => rfl
    | @cons cur s stack' trs' hhead htail =>
      cases s with
      | nil => simp [childIdx] at hhead
      | node j p v l r =>
        obtain rfl : cur = j := by simpa [childIdx] using hhead.symm
        obtain ⟨n, hn, hp, hv, hl, hr, hdl, hdr⟩ :=
          decodes_node.mp (hdec (PTree.node cur p v l r) (by simp))
        obtain ⟨n2, hn2, hp2, hv2, hl2, hr2, hdl2, hdr2⟩ :=
          decodes_node.mp (hdec2 (PTree.node cur p v l r) (by simp))
        have hne : n2 = n := by
          cases n
          cases n2
          simp_all
        subst hne
        simp only [iterAux, Option.bind_eq_bind, hn, hn2, Option.some_bind]
        rw [hl, hr, List.append_assoc]
        rw [ih t t2 (subForest l ++ (subForest r ++ trs'))
          ((match childIdx l with | some c => [c] | none => []) ++
            ((match childIdx r with | some c => [c] | none => []) ++ stack'))
          (by
            refine List.rel_append (subForest_stack l) ?_
            exact List.rel_append (subForest_stack r) htail)
          (by
            intro u hu
            simp only [List.mem_append] at hu
            rcases hu with hu | hu | hu
            · exact subForest_mem hu ▸ hdl
            · exact subForest_mem hu ▸ hdr
            · exact hdec _ (by simp [hu]))
          (by
            intro u hu
            simp only [List.mem_append] at hu
            rcases hu with hu | hu | hu
            · exact subForest_mem hu ▸ hdl2
            · exact subForest_mem hu ▸ hdr2
            · exact hdec2 _ (by simp [hu]))]

theorem subForest_nodes {T : Type} (s : PTree T) :
    ((subForest s).map nodesOf).flatten = nodesOf s := by
  cases s <;> simp [subForest, nodesOf]

/-- The consuming iterator agrees with the by-reference iterator whenever
the stack spans trees whose node indices are pairwise distinct: taking a
value out of a yielded node can then never affect a later visit. -/
theorem intoIterAux_eq_of_nodup {T : Type} [DecidableEq T] :
    ∀ (fuel : Nat) (t : Table T) (trs : List (PTree T)) (stack : List Nat),
      List.Forall₂ (fun (i : Nat) (s : PTree T) => childIdx s = some i)
        stack trs →
      (∀ s ∈ trs, decodes t s = true) →
      (((trs.map nodesOf).flatten.map Prod.fst).Nodup) →
      intoIterAux t fuel stack = iterAux t fuel stack := by
  intro fuel
  induction fuel with
  | zero =>
    intro t trs stack hf _ _
    cases hf <;> rfl
  | succ f ih =>
    intro t trs stack hf hdec hnd
    cases hf with
    | nil => rfl
    | @cons cur s stack' trs' hhead htail =>
      cases s with
      | nil => simp [childIdx] at hhead
      | node j p v l r =>
        obtain rfl : cur = j := by simpa [childIdx] using hhead.symm
        obtain ⟨n, hn, hp, hv, hl, hr, hdl, hdr⟩ :=
          decodes_node.mp (hdec (PTree.node cur p v l r) (by simp))
        have hkey : ((PTree.node cur p v l r :: trs').map nodesOf).flatten.map
            Prod.fst =
            cur :: (((subForest l ++ (subForest r ++ trs')).map
              nodesOf).flatten.map Prod.fst) := by
          simp [nodesOf, List.map_append, List.flatten_append, subForest_nodes]
        rw [hkey] at hnd
        have hcur : cur ∉ ((subForest l ++ (subForest r ++ trs')).map
            nodesOf).flatten.map Prod.fst := (List.nodup_cons.mp hnd).1
        have hnd' : (((subForest l ++ (subForest r ++ trs')).map
            nodesOf).flatten.map Prod.fst).Nodup := (List.nodup_cons.mp hnd).2
        have hfor : List.Forall₂
            (fun (i : Nat) (s : PTree T) => childIdx s = some i)
            ((match childIdx l with | some c => [c] | none => []) ++
              ((match childIdx r with | some c => [c] | none => []) ++ stack'))
            (subForest l ++ (subForest r ++ trs')) := by
          refine List.rel_append (subForest_stack l) ?_
          exact List.rel_append (subForest_stack r) htail
        have hdecS : ∀ u ∈ subForest l ++ (subForest r ++ trs'),
            decodes t u = true := by
          intro u hu
          simp only [List.mem_append] at hu
          rcases hu with hu | hu | hu
          · exact subForest_mem hu ▸ hdl
          · exact subForest_mem hu ▸ hdr
          · exact hdec _ (by simp [hu])
        have hmemidx : ∀ (u : PTree T) (i : Nat) (k : Pfx),
            u ∈ subForest l ++ (subForest r ++ trs') → (i, k) ∈ nodesOf u →
            i ∈ ((subForest l ++ (subForest r ++ trs')).map
              nodesOf).flatten.map Prod.fst := by
          intro u i k hu hik
          simp only [List.mem_map, List.mem_flatten]
          exact ⟨(i, k), ⟨nodesOf u, ⟨u, hu, rfl⟩, hik⟩, rfl⟩
        cases hvv : n.value with
        | none =>
          simp only [intoIterAux, iterAux, Option.bind_eq_bind, hn,
            Option.some_bind, hvv, hl, hr, List.append_assoc]
          rw [ih t _ _ hfor hdecS hnd']
          cases hrec : iterAux t f
              ((match childIdx l with | some c => [c] | none => []) ++
                ((match childIdx r with | some c => [c] | none => []) ++
                  stack')) <;> simp
        | some x =>
          have hdecS' : ∀ u ∈ subForest l ++ (subForest r ++ trs'),
              decodes (t.set cur ⟨pZero, none, childIdx l, childIdx r⟩)
                u = true := by
            intro u hu
            refine decodes_frame ?_ (hdecS u hu)
            intro i k hik
            have hne : i ≠ cur := by
              intro he
              exact hcur (he ▸ hmemidx u i k hu hik)
            exact List.getElem?_set_ne (fun he => hne he.symm)
          simp only [intoIterAux, iterAux, Option.bind_eq_bind, hn,
            Option.some_bind, hvv, hl, hr, List.append_assoc]
          rw [ih (t.set cur ⟨pZero, none, childIdx l, childIdx r⟩) _ _
            hfor hdecS' hnd']
          rw [iterAux_eq_of_decode f _ t _ _ hfor hdecS' hdecS]

/-- An arena in which both child links of the root alias the same node:
the shape claim C10 makes about arbitrary tables and stacks fails here,
because `IntoIter` takes the value out of the shared node at the first
visit. -/
def c10Table : Table Nat :=
  [⟨[], none, some 1, some 1⟩, ⟨[true], some 42, none, none⟩]

theorem c10_counterexample :
    intoIterAux c10Table 3 [0] ≠ iterAux c10Table 3 [0] := by decide

/-- C10 (amended): the by-reference and the mutable-reference iterators
always traverse identically; the consuming iterator matches them whenever
the initial stack spans decoded trees whose node indices are pairwise
distinct — so that taking a value out of a yielded node cannot affect a
later visit — which holds for every tree-shaped arena (invariant I4). -/
theorem c10_iterators_agree {T : Type} [DecidableEq T] (t : Table T)
    (stack : List Nat) (trs : List (PTree T)) (fuel : Nat)
    (hf : List.Forall₂ (fun (i : Nat) (s : PTree T) => childIdx s = some i)
      stack trs)
    (hdec : ∀ s ∈ trs, decodes t s = true)
    (hnd : ((trs.map nodesOf).flatten.map Prod.fst).Nodup) :
    iterMutAux t fuel stack = iterAux t fuel stack ∧
    intoIterAux t fuel stack = iterAux t fuel stack :=
  ⟨iterMutAux_eq_iterAux t fuel stack,
   intoIterAux_eq_of_nodup fuel t trs stack hf hdec hnd⟩

theorem c10_iterators_agree_witness :
    iterMutAux sampleTable 2 [0] = iterAux sampleTable 2 [0] ∧
    intoIterAux sampleTable 2 [0] = iterAux sampleTable 2 [0] :=
  c10_iterators_agree sampleTable [0]
    [PTree.node 0 [] none .nil (PTree.node 1 [true] (some 5) .nil .nil)] 2
    (List.Forall₂.cons rfl List.Forall₂.nil)
    (by
      intro u hu
      rw [List.mem_singleton] at hu
      subst hu
      decide)
    (by decide)

/-- C7: splitting a mutable view whose location is a real node with both
children yields the two child views; the key sets their iterators yield are
disjoint, and their union is exactly the original view's key set minus the
view root's own key. -/
theorem c7_split_disjoint_union {T : Type} [DecidableEq T] (t : Table T)
    (i li ri : Nat) (n : Node T) (s : PTree T) (hdec : decodes t s = true)
    (htwf : twf s = true) (hidx : childIdx s = some i)
    (hn : t[i]? = some n) (hleft : n.left = some li)
    (hright : n.right = some ri) :
    viewSplit t (.node i) = some (some (.node li), some (.node ri)) ∧
    ∀ (f1 f2 f3 : Nat) (resL resR resO : List (Pfx × T)),
      iterAux t f1 [li] = some resL → iterAux t f2 [ri] = some resR →
      iterAux t f3 [i] = some resO →
      (∀ k, k ∈ resL.map Prod.fst → k ∉ resR.map Prod.fst) ∧
      (∀ k, (k ∈ resL.map Prod.fst ∨ k ∈ resR.map Prod.fst) ↔
        (k ∈ resO.map Prod.fst ∧ k ≠ n.pfx)) := by
  cases s with
  | nil => simp [childIdx] at hidx
  | node j p v l r =>
    obtain rfl : i = j := by simpa [childIdx] using hidx.symm
    obtain ⟨n', hn', hp, hv, hl', hr', hdl, hdr⟩ := decodes_node.mp hdec
    obtain rfl : n = n' := by
      rw [hn] at hn'
      exact Option.some_inj.mp hn'
    simp only [twf, Bool.and_eq_true] at htwf
    obtain ⟨⟨⟨hrl, hrr⟩, htl⟩, htr⟩ := htwf
    have hll : childIdx l = some li := by rw [← hl', hleft]
    have hri : childIdx r = some ri := by rw [← hr', hright]
    refine ⟨by simp [viewSplit, hn, hleft, hright], ?_⟩
    intro f1 f2 f3 resL resR resO h1 h2 h3
    have hL := iterAux_forest (t := t) (sizeF [l]) [l] [li] rfl
      (List.Forall₂.cons hll List.Forall₂.nil)
      (by intro u hu; rw [List.mem_singleton] at hu; exact hu ▸ hdl)
    have hR := iterAux_forest (t := t) (sizeF [r]) [r] [ri] rfl
      (List.Forall₂.cons hri List.Forall₂.nil)
      (by intro u hu; rw [List.mem_singleton] at hu; exact hu ▸ hdr)
    have hO := iterAux_forest (t := t) (sizeF [PTree.node i p v l r])
      [PTree.node i p v l r] [i] rfl
      (List.Forall₂.cons (by simp [childIdx]) List.Forall₂.nil)
      (by intro u hu; rw [List.mem_singleton] at hu; exact hu ▸ hdec)
    obtain rfl : resL = treeElems l := by
      have := iterAux_det h1 hL
      simpa using this
    obtain rfl : resR = treeElems r := by
      have := iterAux_det h2 hR
      simpa using this
    obtain rfl : resO = treeElems (PTree.node i p v l r) := by
      have := iterAux_det h3 hO
      simpa using this
    have hkl : ∀ k, k ∈ (treeElems l).map Prod.fst → p ++ [false] <+: k := by
      intro k hk
      obtain ⟨⟨a, b⟩, he, rfl⟩ := List.mem_map.mp hk
      exact treeElems_ext_side hrl htl he
    have hkr : ∀ k, k ∈ (treeElems r).map Prod.fst → p ++ [true] <+: k := by
      intro k hk
      obtain ⟨⟨a, b⟩, he, rfl⟩ := List.mem_map.mp hk
      exact treeElems_ext_side hrr htr he
    constructor
    · intro k hkL hkR
      exact snoc_prefix_conflict (c := false) (hkl k hkL)
        (by simpa using hkr k hkR)
    · intro k
      have hpne : ∀ q : Pfx, ∀ c : Bool, p ++ [c] <+: q → q ≠ n.pfx := by
        intro q c hq he
        rw [he, hp] at hq
        exact not_snoc_prefix_self p c hq
      constructor
      · rintro (hk | hk)
        · refine ⟨?_, hpne k false (hkl k hk)⟩
          simp only [treeElems, List.map_append, List.mem_append]
          exact Or.inl (Or.inr hk)
        · refine ⟨?_, hpne k true (hkr k hk)⟩
          simp only [treeElems, List.map_append, List.mem_append]
          exact Or.inr hk
      · rintro ⟨hk, hne⟩
        simp only [treeElems, List.map_append, List.mem_append] at hk
        rcases hk with (hk | hk) | hk
        · exfalso
          apply hne
          cases v with
          | none => simp at hk
          | some x =>
            simp at hk
            rw [hk, hp]
        · exact Or.inl hk
        · exact Or.inr hk

def c7Table : Table Nat :=
  [⟨[], some 9, some 1, some 2⟩,
   ⟨[false], some 5, none, none⟩,
   ⟨[true], some 7, none, none⟩]

def c7Tree : PTree Nat :=
  .node 0 [] (some 9)
    (.node 1 [false] (some 5) .nil .nil)
    (.node 2 [true] (some 7) .nil .nil)

theorem c7_split_disjoint_union_witness :
    decodes c7Table c7Tree = true ∧
    viewSplit c7Table (.node 0) = some (some (.node 1), some (.node 2)) :=
  ⟨by decide,
   (c7_split_disjoint_union c7Table 0 1 2 ⟨[], some 9, some 1, some 2⟩ c7Tree
      (by decide) (by decide) (by decide) (by decide) rfl rfl).1⟩

theorem filter_sub_nil {A : Type} (P : A → Bool) {xs : List A}
    (h : ∀ e ∈ xs, P e = false) : xs.filter P = [] := by
  induction xs with
  | nil => rfl
  | cons a as ihx =>
      simp [List.filter_cons, h a (by simp),
        ihx fun e he => h e (by simp [he])]

theorem filter_sub_all {A : Type} (P : A → Bool) {xs : List A}
    (h : ∀ e ∈ xs, P e = true) : xs.filter P = xs := by
  induction xs with
  | nil => rfl
  | cons a as ihx =>
      simp [List.filter_cons, h a (by simp),
        ihx fun e he => h e (by simp [he])]

/-- Every key yielded by a well-shaped subtree extends the subtree's root
key. -/
theorem treeElems_ext_root {T : Type} {s : PTree T} (htwf : twf s = true)
    {k : Pfx} {x : T} (h : (k, x) ∈ treeElems s) : rootPfxD s <+: k := by
  cases s with
  | nil => simp [treeElems] at h
  | node i p v l r =>
    have hre : rootExt (rootPfxD (PTree.node i p v l r))
        (PTree.node i p v l r) = true := by
      simp [rootPfxD, rootExt, List.isPrefixOf_iff_prefix]
    exact treeElems_ext_side hre htwf h

/-- Read-only side decomposition of a decoded node: the subtree on side `b`
and its sibling, with their link, shape and decode facts. -/
theorem decode_side {T : Type} [DecidableEq T] {t : Table T} {i : Nat}
    {q : Pfx} {v : Option T} {l r : PTree T} {n : Node T}
    (hdec : decodes t (.node i q v l r) = true)
    (htwf : twf (.node i q v l r) = true)
    (hn : t[i]? = some n) (b : Bool) :
    ∃ cb sib : PTree T,
      ((l = cb ∧ r = sib) ∨ (l = sib ∧ r = cb)) ∧
      childLink n b = childIdx cb ∧ childLink n (!b) = childIdx sib ∧
      rootExt (q ++ [b]) cb = true ∧ rootExt (q ++ [!b]) sib = true ∧
      twf cb = true ∧ twf sib = true ∧
      decodes t cb = true ∧ decodes t sib = true := by
  obtain ⟨n', hn', hp, hv, hl, hr, hdl, hdr⟩ := decodes_node.mp hdec
  obtain rfl : n = n' := by
    rw [hn] at hn'
    exact Option.some_inj.mp hn'
  simp only [twf, Bool.and_eq_true] at htwf
  obtain ⟨⟨⟨hrl, hrr⟩, htl⟩, htr⟩ := htwf
  cases b with
  | false =>
    exact ⟨l, r, Or.inl ⟨rfl, rfl⟩, by simpa [childLink] using hl,
      by simpa [childLink] using hr, hrl, by simpa using hrr, htl, htr,
      hdl, hdr⟩
  | true =>
    exact ⟨r, l, Or.inr ⟨rfl, rfl⟩, by simpa [childLink] using hr,
      by simpa [childLink] using hl, hrr, by simpa using hrl, htr, htl,
      hdr, hdl⟩

/-- The arena slot a non-nil decoded subtree's root names. -/
theorem decode_root {T : Type} [DecidableEq T] {t : Table T} {u : PTree T}
    {c : Nat} (hdec : decodes t u = true) (hc : childIdx u = some c) :
    ∃ cn : Node T, t[c]? = some cn ∧ cn.pfx = rootPfxD u := by
  cases u with
  | nil => simp [childIdx] at hc
  | node j p v l r =>
    obtain rfl : j = c := by simpa [childIdx] using hc
    obtain ⟨n, hn, hp, _⟩ := decodes_node.mp hdec
    exact ⟨n, hn, hp⟩

/-- Filtering a node's yield when the node's own entry and everything on one
side fail the filter: only the other side remains. -/
theorem filter_node_side {T : Type} (P : Pfx × T → Bool) {i : Nat} {q : Pfx}
    {v : Option T} {l r cb sib : PTree T}
    (hside : (l = cb ∧ r = sib) ∨ (l = sib ∧ r = cb))
    (hown : ∀ x, v = some x → P (q, x) = false)
    (hsib : ∀ e ∈ treeElems sib, P e = false) :
    (treeElems (PTree.node i q v l r)).filter P = (treeElems cb).filter P := by
  have hsn : (treeElems sib).filter P = [] := filter_sub_nil P hsib
  have hvn : (match v with | some x => [(q, x)] | none => []).filter P = [] := by
    cases hv : v with
    | none => rfl
    | some x => simp [List.filter_cons, hown x hv]
  rcases hside with ⟨rfl, rfl⟩ | ⟨rfl, rfl⟩ <;>
    simp [treeElems, List.filter_append, hsn, hvn]

/-- Descent lemma for `lpm_children_iter_start`: from a decoded subtree whose
root key contains the query, the start search succeeds and produces a seed
stack whose subtrees yield exactly the entries of the subtree whose keys the
query contains. -/
theorem childrenStart_filter {T : Type} [DecidableEq T] {t : Table T}
    {p : Pfx} :
    ∀ (fuel : Nat) (s : PTree T) (idx : Nat),
      decodes t s = true → twf s = true → childIdx s = some idx →
      rootPfxD s <+: p → p.length + 1 - (rootPfxD s).length ≤ fuel →
      ∃ (st : List Nat) (trs : List (PTree T)),
        childrenStart t p fuel idx = some st ∧
        List.Forall₂ (fun (j : Nat) (u : PTree T) => childIdx u = some j)
          st trs ∧
        (∀ u ∈ trs, decodes t u = true) ∧
        (trs.map treeElems).flatten =
          (treeElems s).filter (fun e => pContains p e.1) := by
  intro fuel
  induction fuel with
  | zero =>
    intro s idx _ _ _ hq hf
    have := hq.length_le
    omega
  | succ fuel ih =>
    intro s idx hdec htwf hidx hq hf
    cases s with
    | nil => simp [childIdx] at hidx
    | node j q0 v l r =>
      obtain rfl : j = idx := by simpa [childIdx] using hidx
      obtain ⟨n, hn, hp, hv, hl, hr, hdl, hdr⟩ := decodes_node.mp hdec
      simp only [rootPfxD] at hf
      have hq' : q0 <+: p := hq
      by_cases hqp : q0 = p
      · subst hqp
        refine ⟨[j], [PTree.node j q0 v l r], ?_, .cons rfl .nil, ?_, ?_⟩
        · simp [childrenStart, hn, hp]
        · intro u hu
          rw [List.mem_singleton] at hu
          exact hu ▸ hdec
        · simp only [List.map_cons, List.map_nil, List.flatten_cons,
            List.flatten_nil, List.append_nil]
          exact (filter_sub_all _ fun e he =>
            pContains_iff.mpr (treeElems_ext_root htwf (by simpa using he))).symm
      · obtain ⟨b, cs, hpd⟩ := proper_prefix_decomp hq' hqp
        have hbr : toRight q0 p = b := by
          rw [hpd]
          exact toRight_append q0 b cs
        have hbp : q0 ++ [b] <+: p := by
          rw [hpd]
          exact ⟨cs, by simp⟩
        have hlen : q0.length < p.length := by
          rw [hpd]
          simp
        obtain ⟨cb, sib, hside, hcbl, hsibl, hcbre, hsibre, hcbtwf, hsibtwf,
          hcbdec, hsibdec⟩ := decode_side hdec htwf hn b
        have hPq0 : pContains p q0 = false := by
          cases hc : pContains p q0 with
          | false => rfl
          | true => exact absurd (pContains_iff.mp hc).length_le (by omega)
        have hownP : ∀ x : T, v = some x → pContains p (q0, x).1 = false :=
          fun _ _ => hPq0
        have hsibP : ∀ e ∈ treeElems sib, pContains p e.1 = false := by
          intro e he
          cases hc : pContains p e.1 with
          | false => rfl
          | true =>
            have h1 : q0 ++ [!b] <+: e.1 :=
              treeElems_ext_side hsibre hsibtwf (by simpa using he)
            have h3 : q0 ++ [b] <+: e.1 := hbp.trans (pContains_iff.mp hc)
            exact (snoc_prefix_conflict h3 h1).elim
        cases cb with
        | nil =>
          have hclb : childLink n b = none := by
            simpa [childIdx] using hcbl
          refine ⟨[], [], ?_, .nil, by simp, ?_⟩
          · simp [childrenStart, hn, hp, hqp, hbr, hclb]
          · symm
            rw [filter_node_side _ hside hownP hsibP]
            simp [treeElems]
        | node cj cp cv cl cr =>
          have hclb : childLink n b = some cj := by
            simpa [childIdx] using hcbl
          obtain ⟨cn, hcn, hcnp⟩ := decode_root hcbdec rfl
          simp only [rootPfxD] at hcnp
          have hext : q0 ++ [b] <+: cp := by
            simpa [rootExt, List.isPrefixOf_iff_prefix] using hcbre
          have hcplen : q0.length + 1 ≤ cp.length := by
            have := hext.length_le
            simpa using this
          cases hcc : pContains cn.pfx p with
          | true =>
            have hcp_p : cp <+: p := by
              rw [hcnp] at hcc
              exact pContains_iff.mp hcc
            obtain ⟨st, trs, hrun, hfa, hdecs, hflat⟩ :=
              ih (PTree.node cj cp cv cl cr) cj hcbdec hcbtwf rfl hcp_p
                (by simp only [rootPfxD]; omega)
            refine ⟨st, trs, ?_, hfa, hdecs, ?_⟩
            · simpa [childrenStart, hn, hp, hqp, hbr, hclb, hcn, hcc,
                Option.bind_eq_bind, Option.some_bind] using hrun
            · rw [filter_node_side _ hside hownP hsibP]
              exact hflat
          | false =>
            cases hc2 : pContains p cn.pfx with
            | true =>
              refine ⟨[cj], [PTree.node cj cp cv cl cr], ?_,
                .cons rfl .nil, ?_, ?_⟩
              · simp [childrenStart, hn, hp, hqp, hbr, hclb, hcn, hcc, hc2]
              · intro u hu
                rw [List.mem_singleton] at hu
                exact hu ▸ hcbdec
              · simp only [List.map_cons, List.map_nil, List.flatten_cons,
                  List.flatten_nil, List.append_nil]
                rw [filter_node_side _ hside hownP hsibP]
                symm
                apply filter_sub_all
                intro e he
                have h1 : cp <+: e.1 := by
                  have := treeElems_ext_root hcbtwf (by simpa using he)
                  simpa using this
                have h2 : p <+: cp := by
                  rw [hcnp] at hc2
                  exact pContains_iff.mp hc2
                exact pContains_iff.mpr (h2.trans h1)
            | false =>
              refine ⟨[], [], ?_, .nil, by simp, ?_⟩
              · simp [childrenStart, hn, hp, hqp, hbr, hclb, hcn, hcc, hc2]
              · symm
                rw [filter_node_side _ hside hownP hsibP]
                apply filter_sub_nil
                intro e he
                cases hc : pContains p e.1 with
                | false => rfl
                | true =>
                  have h1 : cp <+: e.1 := by
                    have := treeElems_ext_root hcbtwf (by simpa using he)
                    simpa using this
                  have h2 : p <+: e.1 := pContains_iff.mp hc
                  rcases prefix_comparable h2 h1 with h3 | h3
                  · rw [hcnp] at hc2
                    rw [(pContains_iff.mpr h3 : pContains p cp = true)] at hc2
                    cases hc2
                  · rw [hcnp] at hcc
                    rw [(pContains_iff.mpr h3 : pContains cp p = true)] at hcc
                    cases hcc

theorem childrenStart_mono {T : Type} {t : Table T} {p : Pfx} :
    ∀ (f g idx : Nat) (res : List Nat), f ≤ g →
      childrenStart t p f idx = some res →
      childrenStart t p g idx = some res := by
  intro f
  induction f with
  | zero =>
    intro g idx res _ h
    simp [childrenStart] at h
  | succ f ihf =>
    intro g idx res hle h
    obtain ⟨g', rfl⟩ : ∃ g', g = g' + 1 := ⟨g - 1, by omega⟩
    cases hn : t[idx]? with
    | none => simp [childrenStart, hn] at h
    | some n =>
      by_cases hp : n.pfx = p
      · simp [childrenStart, hn, hp] at h ⊢
        exact h
      · cases hcl : childLink n (toRight n.pfx p) with
        | none =>
          simp [childrenStart, hn, hp, hcl] at h ⊢
          exact h
        | some c =>
          cases hcn : t[c]? with
          | none => simp [childrenStart, hn, hp, hcl, hcn] at h
          | some cn =>
            cases h1 : pContains cn.pfx p with
            | true =>
              simp [childrenStart, hn, hp, hcl, hcn, h1] at h ⊢
              exact ihf g' c res (by omega) h
            | false =>
              cases h2 : pContains p cn.pfx with
              | true =>
                simp [childrenStart, hn, hp, hcl, hcn, h1, h2] at h ⊢
                exact h
              | false =>
                simp [childrenStart, hn, hp, hcl, hcn, h1, h2] at h ⊢
                exact h

theorem childrenStart_det {T : Type} {t : Table T} {p : Pfx} {f g idx : Nat}
    {res1 res2 : List Nat} (h1 : childrenStart t p f idx = some res1)
    (h2 : childrenStart t p g idx = some res2) : res1 = res2 := by
  rcases Nat.le_total f g with h | h
  · have := childrenStart_mono f g idx res1 h h1
    rw [this] at h2
    exact Option.some_inj.mp h2
  · have := childrenStart_mono g f idx res2 h h2
    rw [this] at h1
    exact (Option.some_inj.mp h1).symm

/-- C4: on a well-formed arena, every successful run of the `children(p)`
pipeline — the start-point search seeding the stack, then the depth-first
iterator — yields exactly the stored entries whose key the query contains,
in strictly ascending lexicographic order. -/
theorem c4_children_complete {T : Type} [DecidableEq T] {t : Table T}
    (hinv : TableInv t) (p : Pfx) (f1 f2 f3 : Nat) (st : List Nat)
    (res all : List (Pfx × T))
    (hstart : childrenStart t p f1 0 = some st)
    (hrun : iterAux t f2 st = some res)
    (hall : iterAux t f3 [0] = some all) :
    res = all.filter (fun e => pContains p e.1) ∧
    res.Pairwise (fun a b => pfxLt a.1 b.1 = true) := by
  obtain ⟨s, hdec, htwf, hidx, hroot⟩ := hinv
  have hq : rootPfxD s <+: p := by
    rw [hroot]
    exact ⟨p, rfl⟩
  obtain ⟨st', trs, hrun', hfa, hdecs, hflat⟩ :=
    childrenStart_filter (p.length + 1) s 0 hdec htwf hidx hq (by omega)
  obtain rfl : st = st' := childrenStart_det hstart hrun'
  have hfor := iterAux_forest (t := t) (sizeF trs) trs st rfl hfa hdecs
  obtain rfl : res = (trs.map treeElems).flatten := iterAux_det hrun hfor
  have hforall := iterAux_forest (t := t) (sizeF [s]) [s] [0] rfl
    (List.Forall₂.cons hidx List.Forall₂.nil)
    (by intro u hu; rw [List.mem_singleton] at hu; exact hu ▸ hdec)
  obtain rfl : all = treeElems s := by
    have := iterAux_det hall hforall
    simpa using this
  refine ⟨hflat, ?_⟩
  rw [hflat]
  exact (treeElems_sorted htwf).sublist (List.filter_sublist _)

theorem c4_children_complete_witness :
    ([(([true] : Pfx), 7)] : List (Pfx × Nat)) =
      List.filter (fun e => pContains [true] e.1)
        [(([] : Pfx), 9), (([false] : Pfx), 5), (([true] : Pfx), 7)] ∧
    List.Pairwise (fun (a b : Pfx × Nat) => pfxLt a.1 b.1 = true)
      [(([true] : Pfx), 7)] :=
  c4_children_complete (t := c7Table)
    ⟨c7Tree, by decide, by decide, rfl, rfl⟩ [true] 2 3 4 [2]
    [([true], 7)] [([], 9), ([false], 5), ([true], 7)]
    (by decide) (by decide) (by decide)

/-- Descent lemma for the `Cover` walk: from a decoded subtree whose root
key contains the query, the walk succeeds and collects exactly the stored
entries below the root whose key contains the query, other than the root's
own entry, in traversal order. -/
theorem coverFrom_filter {T : Type} [DecidableEq T] {t : Table T} {p : Pfx} :
    ∀ (fuel : Nat) (s : PTree T) (idx : Nat),
      decodes t s = true → twf s = true → childIdx s = some idx →
      rootPfxD s <+: p → p.length + 1 - (rootPfxD s).length ≤ fuel →
      coverFrom t p fuel idx =
        some ((treeElems s).filter
          (fun e => pContains e.1 p && decide (e.1 ≠ rootPfxD s))) := by
  intro fuel
  induction fuel with
  | zero =>
    intro s idx _ _ _ hq hf
    have := hq.length_le
    omega
  | succ fuel ih =>
    intro s idx hdec htwf hidx hq hf
    cases s with
    | nil => simp [childIdx] at hidx
    | node j q0 v l r =>
      obtain rfl : j = idx := by simpa [childIdx] using hidx
      obtain ⟨n, hn, hp, hv, hl, hr, hdl, hdr⟩ := decodes_node.mp hdec
      simp only [rootPfxD] at hf hq ⊢
      simp only [twf, Bool.and_eq_true] at htwf
      obtain ⟨⟨⟨hrl, hrr⟩, htl⟩, htr⟩ := htwf
      have hownA : ∀ x : T, v = some x →
          (pContains (q0, x).1 p && decide ((q0, x).1 ≠ q0)) = false := by
        intro x _
        simp
      by_cases hqp : q0 = p
      · have hgd := gd_reached hn (hp.trans hqp)
        have hfe : (treeElems (PTree.node j q0 v l r)).filter
            (fun e => pContains e.1 p && decide (e.1 ≠ q0)) = [] := by
          apply filter_sub_nil
          intro e he
          simp only [treeElems, List.mem_append] at he
          rcases he with (he | he) | he
          · cases hvv : v with
            | none => rw [hvv] at he; simp at he
            | some x =>
              rw [hvv] at he
              simp only [List.mem_singleton] at he
              rw [he]
              simp
          · cases hc : pContains e.1 p with
            | false => simp [hc]
            | true =>
              have h1 : q0 ++ [false] <+: e.1 :=
                treeElems_ext_side hrl htl (by simpa using he)
              have h2 : e.1 <+: p := pContains_iff.mp hc
              rw [← hqp] at h2
              have h3 := h1.length_le
              have h4 := h2.length_le
              simp at h3
              omega
          · cases hc : pContains e.1 p with
            | false => simp [hc]
            | true =>
              have h1 : q0 ++ [true] <+: e.1 :=
                treeElems_ext_side hrr htr (by simpa using he)
              have h2 : e.1 <+: p := pContains_iff.mp hc
              have h3 := h1.length_le
              rw [← hqp] at h2
              have h4 := h2.length_le
              simp at h3
              omega
        rw [hfe]
        simp [coverFrom, hgd]
      · obtain ⟨b, cs, hpd⟩ := proper_prefix_decomp hq hqp
        have hbr : toRight q0 p = b := by
          rw [hpd]
          exact toRight_append q0 b cs
        have hbp : q0 ++ [b] <+: p := by
          rw [hpd]
          exact ⟨cs, by simp⟩
        have hlen : q0.length < p.length := by
          rw [hpd]
          simp
        obtain ⟨cb, sib, hside, hcbl, hsibl, hcbre, hsibre, hcbtwf, hsibtwf,
          hcbdec, hsibdec⟩ := decode_side hdec
          (by simp only [twf, Bool.and_eq_true]; exact ⟨⟨⟨hrl, hrr⟩, htl⟩, htr⟩)
          hn b
        have hsibA : ∀ e ∈ treeElems sib,
            (pContains e.1 p && decide (e.1 ≠ q0)) = false := by
          intro e he
          cases hc : pContains e.1 p with
          | false => simp [hc]
          | true =>
            have h1 : q0 ++ [!b] <+: e.1 :=
              treeElems_ext_side hsibre hsibtwf (by simpa using he)
            have h2 : q0 ++ [!b] <+: p := h1.trans (pContains_iff.mp hc)
            exact (snoc_prefix_conflict hbp h2).elim
        cases cb with
        | nil =>
          have hclb : childLink n (toRight n.pfx p) = none := by
            rw [hp, hbr]
            simpa [childIdx] using hcbl
          have hgd := gd_missing_nochild hn (by rw [hp]; exact hqp) hclb
          rw [filter_node_side _ hside hownA hsibA]
          simp [coverFrom, hgd, treeElems]
        | node cj cp cv cl cr =>
          have hclb : childLink n b = some cj := by
            simpa [childIdx] using hcbl
          obtain ⟨cn, hcn, hcnp, hcnv, hcnl, hcnr, hdcl, hdcr⟩ :=
            decodes_node.mp hcbdec
          have hext : q0 ++ [b] <+: cp := by
            simpa [rootExt, List.isPrefixOf_iff_prefix] using hcbre
          have hcplen : q0.length + 1 ≤ cp.length := by
            have := hext.length_le
            simpa using this
          simp only [twf, Bool.and_eq_true] at hcbtwf
          obtain ⟨⟨⟨hcrl, hcrr⟩, htcl⟩, htcr⟩ := hcbtwf
          rw [filter_node_side _ hside hownA hsibA]
          cases hcc : pContains cn.pfx p with
          | true =>
            have hcp_p : cp <+: p := by
              rw [hcnp] at hcc
              exact pContains_iff.mp hcc
            have hgd : get_direction t j p = some (.Enter cj b) := by
              have h0 : childLink n (toRight n.pfx p) = some cj := by
                rw [hp, hbr]
                exact hclb
              have := gd_enter hn (by rw [hp]; exact hqp) h0 hcn hcc
              rwa [hp, hbr] at this
            have ihe := ih (PTree.node cj cp cv cl cr) cj hcbdec
              (by simp only [twf, Bool.and_eq_true]
                  exact ⟨⟨⟨hcrl, hcrr⟩, htcl⟩, htcr⟩)
              rfl hcp_p (by simp only [rootPfxD]; omega)
            simp only [rootPfxD] at ihe
            have hdeep : ∀ u : PTree T, rootExt (cp ++ [false]) u = true ∨
                rootExt (cp ++ [true]) u = true → twf u = true →
                (treeElems u).filter
                  (fun e => pContains e.1 p && decide (e.1 ≠ q0)) =
                (treeElems u).filter
                  (fun e => pContains e.1 p && decide (e.1 ≠ cp)) := by
              intro u hre htwfu
              apply List.filter_congr
              intro e he
              have h1 : cp.length + 1 ≤ e.1.length := by
                rcases hre with hre | hre
                · have := (treeElems_ext_side hre htwfu
                    (by simpa using he)).length_le
                  simpa using this
                · have := (treeElems_ext_side hre htwfu
                    (by simpa using he)).length_le
                  simpa using this
              have h2 : e.1 ≠ q0 := by
                intro he2
                rw [he2] at h1
                omega
              have h3 : e.1 ≠ cp := by
                intro he2
                rw [he2] at h1
                omega
              simp [h2, h3]
            cases cv with
            | none =>
              have hfe : (treeElems (PTree.node cj cp none cl cr)).filter
                  (fun e => pContains e.1 p && decide (e.1 ≠ q0)) =
                  (treeElems (PTree.node cj cp none cl cr)).filter
                  (fun e => pContains e.1 p && decide (e.1 ≠ cp)) := by
                simp only [treeElems, List.filter_append]
                rw [hdeep cl (Or.inl hcrl) htcl, hdeep cr (Or.inr hcrr) htcr]
                simp
              rw [hfe]
              simp [coverFrom, hgd, Option.bind_eq_bind, Option.some_bind,
                hcn, ihe, hcnv]
            | some x =>
              have hne : cp ≠ q0 := by
                intro he2
                rw [he2] at hcplen
                omega
              have hfe : (treeElems (PTree.node cj cp (some x) cl cr)).filter
                  (fun e => pContains e.1 p && decide (e.1 ≠ q0)) =
                  (cp, x) ::
                    (treeElems (PTree.node cj cp (some x) cl cr)).filter
                      (fun e => pContains e.1 p && decide (e.1 ≠ cp)) := by
                simp only [treeElems, List.filter_append]
                rw [hdeep cl (Or.inl hcrl) htcl, hdeep cr (Or.inr hcrr) htcr]
                simp [List.filter_cons, pContains_iff.mpr hcp_p, hne]
              rw [hfe]
              simp [coverFrom, hgd, Option.bind_eq_bind, Option.some_bind,
                hcn, ihe, hcnv, hcnp]
          | false =>
            have hgd : get_direction t j p = some .Missing := by
              have h0 : childLink n (toRight n.pfx p) = some cj := by
                rw [hp, hbr]
                exact hclb
              exact gd_missing_nocontain hn (by rw [hp]; exact hqp) h0 hcn hcc
            have hfe : (treeElems (PTree.node cj cp cv cl cr)).filter
                (fun e => pContains e.1 p && decide (e.1 ≠ q0)) = [] := by
              apply filter_sub_nil
              intro e he
              cases hc : pContains e.1 p with
              | false => simp [hc]
              | true =>
                have h1 : cp <+: e.1 := by
                  have := treeElems_ext_root
                    (by simp only [twf, Bool.and_eq_true]
                        exact ⟨⟨⟨hcrl, hcrr⟩, htcl⟩, htcr⟩)
                    (show (e.1, e.2) ∈
                      treeElems (PTree.node cj cp cv cl cr) by simpa using he)
                  simpa using this
                have h2 : cp <+: p := h1.trans (pContains_iff.mp hc)
                rw [hcnp] at hcc
                rw [(pContains_iff.mpr h2 : pContains cp p = true)] at hcc
                cases hcc
            rw [hfe]
            simp [coverFrom, hgd]

theorem coverFrom_mono {T : Type} {t : Table T} {p : Pfx} :
    ∀ (f g idx : Nat) (res : List (Pfx × T)), f ≤ g →
      coverFrom t p f idx = some res → coverFrom t p g idx = some res := by
  intro f
  induction f with
  | zero =>
    intro g idx res _ h
    simp [coverFrom] at h
  | succ f ihf =>
    intro g idx res hle h
    obtain ⟨g', rfl⟩ : ∃ g', g = g' + 1 := ⟨g - 1, by omega⟩
    cases hd : get_direction t idx p with
    | none => simp [coverFrom, hd] at h
    | some d =>
      cases d with
      | Reached =>
        simp [coverFrom, hd] at h ⊢
        exact h
      | Missing =>
        simp [coverFrom, hd] at h ⊢
        exact h
      | Enter next b =>
        cases hn : t[next]? with
        | none => simp [coverFrom, hd, hn] at h
        | some n =>
          cases hrest : coverFrom t p f next with
          | none => simp [coverFrom, hd, hn, hrest] at h
          | some rest =>
            have hg := ihf g' next rest (by omega) hrest
            cases hv : n.value with
            | none =>
              simp only [coverFrom, hd, hn, hrest, hv, Option.bind_eq_bind,
                Option.some_bind] at h
              simp only [coverFrom, hd, hn, hg, hv, Option.bind_eq_bind,
                Option.some_bind]
              exact h
            | some v0 =>
              simp only [coverFrom, hd, hn, hrest, hv, Option.bind_eq_bind,
                Option.some_bind] at h
              simp only [coverFrom, hd, hn, hg, hv, Option.bind_eq_bind,
                Option.some_bind]
              exact h

theorem coverFrom_det {T : Type} {t : Table T} {p : Pfx} {f g idx : Nat}
    {res1 res2 : List (Pfx × T)} (h1 : coverFrom t p f idx = some res1)
    (h2 : coverFrom t p g idx = some res2) : res1 = res2 := by
  rcases Nat.le_total f g with h | h
  · have := coverFrom_mono f g idx res1 h h1
    rw [this] at h2
    exact Option.some_inj.mp h2
  · have := coverFrom_mono g f idx res2 h h2
    rw [this] at h1
    exact (Option.some_inj.mp h1).symm

/-- C5: on a well-formed arena, every successful run of the `cover(p)`
iterator yields exactly the stored entries whose key is contained in the
query, each entry a proper prefix of all later ones (least specific
first). -/
theorem c5_cover_complete {T : Type} [DecidableEq T] {t : Table T}
    (hinv : TableInv t) (p : Pfx) (f1 f2 : Nat) (res all : List (Pfx × T))
    (hrun : coverList t p f1 = some res)
    (hall : iterAux t f2 [0] = some all) :
    res = all.filter (fun e => pContains e.1 p) ∧
    res.Pairwise (fun a b => a.1 <+: b.1 ∧ a.1 ≠ b.1) := by
  obtain ⟨s, hdec, htwf, hidx, hroot⟩ := hinv
  have hforall := iterAux_forest (t := t) (sizeF [s]) [s] [0] rfl
    (List.Forall₂.cons hidx List.Forall₂.nil)
    (by intro u hu; rw [List.mem_singleton] at hu; exact hu ▸ hdec)
  obtain rfl : all = treeElems s := by
    have := iterAux_det hall hforall
    simpa using this
  have hmain : res = (treeElems s).filter (fun e => pContains e.1 p) := by
    cases s with
    | nil => simp [childIdx] at hidx
    | node j q0 v l r =>
      obtain rfl : j = 0 := by simpa [childIdx] using hidx
      have hq0 : q0 = [] := hroot
      subst hq0
      obtain ⟨n0, hn0, hp0, hv0, hl0, hr0, hdl0, hdr0⟩ := decodes_node.mp hdec
      simp only [twf, Bool.and_eq_true] at htwf
      obtain ⟨⟨⟨hrl, hrr⟩, htl⟩, htr⟩ := htwf
      have hcf := coverFrom_filter (p := p) (p.length + 1)
        (PTree.node 0 [] v l r) 0 hdec
        (by simp only [twf, Bool.and_eq_true]; exact ⟨⟨⟨hrl, hrr⟩, htl⟩, htr⟩)
        rfl ⟨p, rfl⟩ (by simp [rootPfxD])
      simp only [rootPfxD] at hcf
      have hAC : ∀ (u : PTree T) (c : Bool), rootExt ([] ++ [c]) u = true →
          twf u = true →
          (treeElems u).filter
            (fun e => pContains e.1 p && decide (e.1 ≠ ([] : Pfx))) =
          (treeElems u).filter (fun e => pContains e.1 p) := by
        intro u c hre htwfu
        apply List.filter_congr
        intro e he
        have h1 : ([] : Pfx) ++ [c] <+: e.1 :=
          treeElems_ext_side hre htwfu (by simpa using he)
        have h2 : e.1 ≠ ([] : Pfx) := by
          intro he2
          have := h1.length_le
          rw [he2] at this
          simp at this
        simp [h2]
      cases hrest1 : coverFrom t p f1 0 with
      | none => simp [coverList, hn0, hrest1] at hrun
      | some rest1 =>
        obtain rfl : rest1 = (treeElems (PTree.node 0 [] v l r)).filter
            (fun e => pContains e.1 p && decide (e.1 ≠ ([] : Pfx))) :=
          coverFrom_det hrest1 hcf
        cases hvv : v with
        | none =>
          simp only [hvv] at hn0 hrun hdec ⊢
          simp only [coverList, hn0, hrest1, hv0, hvv, Option.bind_eq_bind,
            Option.some_bind, Option.pure_def, Option.some.injEq] at hrun
          rw [← hrun]
          simp only [treeElems, List.filter_append]
          rw [hAC l false hrl htl, hAC r true hrr htr]
          simp
        | some x =>
          simp only [hvv] at hn0 hrun hdec ⊢
          simp only [coverList, hn0, hrest1, hv0, hvv, Option.bind_eq_bind,
            Option.some_bind, Option.pure_def, Option.some.injEq] at hrun
          rw [← hrun, hp0]
          simp only [treeElems, List.filter_append]
          rw [hAC l false hrl htl, hAC r true hrr htr]
          have hnilp : pContains ([] : Pfx) p = true :=
            pContains_iff.mpr ⟨p, rfl⟩
          simp [List.filter_cons, hnilp]
  refine ⟨hmain, ?_⟩
  rw [hmain]
  have hsorted : ((treeElems s).filter
      (fun e => pContains e.1 p)).Pairwise
      (fun a b => pfxLt a.1 b.1 = true) :=
    (treeElems_sorted htwf).sublist (List.filter_sublist _)
  refine hsorted.imp_of_mem ?_
  intro a b ha hb hlt
  have ha' := (List.mem_filter.mp ha).2
  have hb' := (List.mem_filter.mp hb).2
  exact pfxLt_prefix_of_common (pContains_iff.mp ha')
    (pContains_iff.mp hb') hlt

theorem c5_cover_complete_witness :
    ([(([] : Pfx), 9), (([false] : Pfx), 5)] : List (Pfx × Nat)) =
      List.filter (fun e => pContains e.1 [false])
        [(([] : Pfx), 9), (([false] : Pfx), 5), (([true] : Pfx), 7)] ∧
    List.Pairwise (fun (a b : Pfx × Nat) => a.1 <+: b.1 ∧ a.1 ≠ b.1)
      [(([] : Pfx), 9), (([false] : Pfx), 5)] :=
  c5_cover_complete (t := c7Table)
    ⟨c7Tree, by decide, by decide, rfl, rfl⟩ [false] 2 4
    [([], 9), ([false], 5)] [([], 9), ([false], 5), ([true], 7)]
    (by decide) (by decide)

/-- Descent lemma for `find_lpm`: from a decoded subtree whose root key
contains the query, the walk succeeds, and its result dominates every stored
key in the subtree that contains the query; the result is the carried
fallback, or a value-bearing node of the subtree whose key contains the
query. -/
theorem findLpm_spec {T : Type} [DecidableEq T] {t : Table T} {p : Pfx} :
    ∀ (fuel : Nat) (s : PTree T) (idx : Nat) (best : Option Nat),
      decodes t s = true → twf s = true → childIdx s = some idx →
      rootPfxD s <+: p → p.length + 1 - (rootPfxD s).length ≤ fuel →
      ∃ r : Option Nat, findLpm t p fuel idx best = some r ∧
        (r = best ∨ ∃ (i : Nat) (m : Node T) (x : T), r = some i ∧
          t[i]? = some m ∧ m.value = some x ∧ m.pfx <+: p ∧
          (m.pfx, x) ∈ treeElems s) ∧
        (∀ (k : Pfx) (x : T), (k, x) ∈ treeElems s → k <+: p →
          ∃ (i : Nat) (m : Node T), r = some i ∧ t[i]? = some m ∧
            m.value.isSome = true ∧ m.pfx <+: p ∧ k <+: m.pfx) := by
  intro fuel
  induction fuel with
  | zero =>
    intro s idx best _ _ _ hq hf
    have := hq.length_le
    omega
  | succ fuel ih =>
    intro s idx best hdec htwf hidx hq hf
    cases s with
    | nil => simp [childIdx] at hidx
    | node j q0 v l r =>
      obtain rfl : j = idx := by simpa [childIdx] using hidx
      obtain ⟨n, hn, hp, hv, hl, hr, hdl, hdr⟩ := decodes_node.mp hdec
      simp only [rootPfxD] at hf hq
      simp only [twf, Bool.and_eq_true] at htwf
      obtain ⟨⟨⟨hrl, hrr⟩, htl⟩, htr⟩ := htwf
      have hc1b : (if n.value.isSome then some j else best) = best ∨
          ∃ (i : Nat) (m : Node T) (x : T),
            (if n.value.isSome then some j else best) = some i ∧
            t[i]? = some m ∧ m.value = some x ∧ m.pfx <+: p ∧
            (m.pfx, x) ∈ treeElems (PTree.node j q0 v l r) := by
        cases hvv : v with
        | none =>
          left
          simp [hv, hvv]
        | some x =>
          right
          refine ⟨j, n, x, by simp [hv, hvv], hn, hv.trans hvv,
            by rw [hp]; exact hq, ?_⟩
          rw [hp]
          simp [treeElems]
      have hc2own : ∀ x : T, v = some x →
          ∃ (i : Nat) (m : Node T),
            (if n.value.isSome then some j else best) = some i ∧
            t[i]? = some m ∧ m.value.isSome = true ∧ m.pfx <+: p ∧
            q0 <+: m.pfx := by
        intro x hvv
        exact ⟨j, n, by simp [hv, hvv], hn, by rw [hv, hvv]; rfl,
          by rw [hp]; exact hq, by simp [hp]⟩
      by_cases hqp : q0 = p
      · have hgd := gd_reached hn (hp.trans hqp)
        refine ⟨if n.value.isSome then some j else best,
          by simp [findLpm, hn, hgd, Option.bind_eq_bind, Option.some_bind],
          hc1b, ?_⟩
        intro k x hk hkp
        simp only [treeElems, List.mem_append] at hk
        rcases hk with (hk | hk) | hk
        · cases hvv : v with
          | none =>
            rw [hvv] at hk
            simp at hk
          | some x0 =>
            rw [hvv] at hk
            simp at hk
            rw [hk.1]
            exact hc2own x0 hvv
        · have h1 := (treeElems_ext_side hrl htl hk).length_le
          have h2 := hkp.length_le
          rw [← hqp] at h2
          simp at h1
          omega
        · have h1 := (treeElems_ext_side hrr htr hk).length_le
          have h2 := hkp.length_le
          rw [← hqp] at h2
          simp at h1
          omega
      · obtain ⟨b, cs, hpd⟩ := proper_prefix_decomp hq hqp
        have hbr : toRight q0 p = b := by
          rw [hpd]
          exact toRight_append q0 b cs
        have hbp : q0 ++ [b] <+: p := by
          rw [hpd]
          exact ⟨cs, by simp⟩
        have hlen : q0.length < p.length := by
          rw [hpd]
          simp
        obtain ⟨cb, sib, hside, hcbl, hsibl, hcbre, hsibre, hcbtwf, hsibtwf,
          hcbdec, hsibdec⟩ := decode_side hdec
          (by simp only [twf, Bool.and_eq_true]; exact ⟨⟨⟨hrl, hrr⟩, htl⟩, htr⟩)
          hn b
        have hsibno : ∀ (k : Pfx) (x : T), (k, x) ∈ treeElems sib →
            k <+: p → False := by
          intro k x hk hkp
          have h1 : q0 ++ [!b] <+: k :=
            treeElems_ext_side hsibre hsibtwf hk
          exact snoc_prefix_conflict hbp (h1.trans hkp)
        cases cb with
        | nil =>
          have hclb : childLink n (toRight n.pfx p) = none := by
            rw [hp, hbr]
            simpa [childIdx] using hcbl
          have hgd := gd_missing_nochild hn (by rw [hp]; exact hqp) hclb
          refine ⟨if n.value.isSome then some j else best,
            by simp [findLpm, hn, hgd, Option.bind_eq_bind, Option.some_bind],
            hc1b, ?_⟩
          intro k x hk hkp
          simp only [treeElems, List.mem_append] at hk
          have hownk : (k, x) ∈ (match v with
              | some x => [(q0, x)] | none => ([] : List (Pfx × T))) →
              ∃ (i : Nat) (m : Node T),
                (if n.value.isSome then some j else best) = some i ∧
                t[i]? = some m ∧ m.value.isSome = true ∧ m.pfx <+: p ∧
                k <+: m.pfx := by
            intro hk0
            cases hvv : v with
            | none =>
              rw [hvv] at hk0
              simp at hk0
            | some x0 =>
              rw [hvv] at hk0
              simp at hk0
              rw [hk0.1]
              exact hc2own x0 hvv
          rcases hside with ⟨h1, h2⟩ | ⟨h1, h2⟩ <;> subst h1 <;> subst h2
          · rcases hk with (hk | hk) | hk
            · exact hownk hk
            · simp [treeElems] at hk
            · exact (hsibno k x hk hkp).elim
          · rcases hk with (hk | hk) | hk
            · exact hownk hk
            · exact (hsibno k x hk hkp).elim
            · simp [treeElems] at hk
        | node cj cp cv cl cr =>
          have hclb : childLink n (toRight n.pfx p) = some cj := by
            rw [hp, hbr]
            simpa [childIdx] using hcbl
          obtain ⟨cn, hcn, hcnp⟩ := decode_root hcbdec rfl
          simp only [rootPfxD] at hcnp
          have hext : q0 ++ [b] <+: cp := by
            simpa [rootExt, List.isPrefixOf_iff_prefix] using hcbre
          have hcplen : q0.length + 1 ≤ cp.length := by
            have := hext.length_le
            simpa using this
          cases hcc : pContains cn.pfx p with
          | false =>
            have hgd := gd_missing_nocontain hn (by rw [hp]; exact hqp)
              hclb hcn hcc
            refine ⟨if n.value.isSome then some j else best,
              by simp [findLpm, hn, hgd, Option.bind_eq_bind,
                Option.some_bind],
              hc1b, ?_⟩
            intro k x hk hkp
            simp only [treeElems, List.mem_append] at hk
            have hownk : (k, x) ∈ (match v with
                | some x => [(q0, x)] | none => ([] : List (Pfx × T))) →
                ∃ (i : Nat) (m : Node T),
                  (if n.value.isSome then some j else best) = some i ∧
                  t[i]? = some m ∧ m.value.isSome = true ∧ m.pfx <+: p ∧
                  k <+: m.pfx := by
              intro hk0
              cases hvv : v with
              | none =>
                rw [hvv] at hk0
                simp at hk0
              | some x0 =>
                rw [hvv] at hk0
                simp at hk0
                rw [hk0.1]
                exact hc2own x0 hvv
            have hcbno : ∀ (k' : Pfx) (x' : T),
                (k', x') ∈ treeElems (PTree.node cj cp cv cl cr) →
                k' <+: p → False := by
              intro k' x' hk' hkp'
              have h1 : cp <+: k' := by
                have := treeElems_ext_root hcbtwf hk'
                simpa using this
              rw [hcnp] at hcc
              rw [(pContains_iff.mpr (h1.trans hkp') :
                pContains cp p = true)] at hcc
              cases hcc
            rcases hside with ⟨h1, h2⟩ | ⟨h1, h2⟩ <;> subst h1 <;> subst h2
            · rcases hk with (hk | hk) | hk
              · exact hownk hk
              · exact (hcbno k x hk hkp).elim
              · exact (hsibno k x hk hkp).elim
            · rcases hk with (hk | hk) | hk
              · exact hownk hk
              · exact (hsibno k x hk hkp).elim
              · exact (hcbno k x hk hkp).elim
          | true =>
            have hcp_p : cp <+: p := by
              rw [hcnp] at hcc
              exact pContains_iff.mp hcc
            have hgd : get_direction t j p = some (.Enter cj b) := by
              have := gd_enter hn (by rw [hp]; exact hqp) hclb hcn hcc
              rwa [hp, hbr] at this
            obtain ⟨r0, hrun, hP1, hP2⟩ := ih (PTree.node cj cp cv cl cr) cj
              (if n.value.isSome then some j else best) hcbdec hcbtwf rfl
              hcp_p (by simp only [rootPfxD]; omega)
            have hdom : ∀ x0 : T, v = some x0 →
                ∃ (i : Nat) (m : Node T), r0 = some i ∧ t[i]? = some m ∧
                  m.value.isSome = true ∧ m.pfx <+: p ∧ q0 <+: m.pfx := by
              intro x0 hvv
              rcases hP1 with hP1 | ⟨i, m, x', hri, hmi, hmv, hmp, hmem⟩
              · obtain ⟨i0, m0, he0, hm0, hs0, hp0', hq0'⟩ := hc2own x0 hvv
                exact ⟨i0, m0, by rw [hP1]; exact he0, hm0, hs0, hp0', hq0'⟩
              · have hcpm : cp <+: m.pfx := by
                  have := treeElems_ext_root hcbtwf hmem
                  simpa using this
                exact ⟨i, m, hri, hmi, by rw [hmv]; rfl, hmp,
                  ((List.prefix_append q0 [b]).trans hext).trans hcpm⟩
            have hlift : ∀ e : Pfx × T,
                e ∈ treeElems (PTree.node cj cp cv cl cr) →
                e ∈ treeElems (PTree.node j q0 v l r) := by
              intro e he
              rcases hside with ⟨h1, h2⟩ | ⟨h1, h2⟩ <;> subst h1 <;> subst h2
              · exact List.mem_append_left _ (List.mem_append_right _ he)
              · exact List.mem_append_right _ he
            refine ⟨r0, ?_, ?_, ?_⟩
            · simp only [findLpm, hn, hgd, Option.bind_eq_bind,
                Option.some_bind]
              exact hrun
            · rcases hP1 with hP1 | ⟨i, m, x, hri, hmi, hmv, hmp, hmem⟩
              · rw [hP1]
                exact hc1b
              · exact Or.inr ⟨i, m, x, hri, hmi, hmv, hmp, hlift _ hmem⟩
            · intro k x hk hkp
              simp only [treeElems, List.mem_append] at hk
              have hownk : (k, x) ∈ (match v with
                  | some x => [(q0, x)] | none => ([] : List (Pfx × T))) →
                  ∃ (i : Nat) (m : Node T), r0 = some i ∧ t[i]? = some m ∧
                    m.value.isSome = true ∧ m.pfx <+: p ∧ k <+: m.pfx := by
                intro hk0
                cases hvv : v with
                | none =>
                  rw [hvv] at hk0
                  simp at hk0
                | some x0 =>
                  rw [hvv] at hk0
                  simp at hk0
                  rw [hk0.1]
                  exact hdom x0 hvv
              rcases hside with ⟨h1, h2⟩ | ⟨h1, h2⟩ <;> subst h1 <;> subst h2
              · rcases hk with (hk | hk) | hk
                · exact hownk hk
                · exact hP2 k x hk hkp
                · exact (hsibno k x hk hkp).elim
              · rcases hk with (hk | hk) | hk
                · exact hownk hk
                · exact (hsibno k x hk hkp).elim
                · exact hP2 k x hk hkp

theorem findLpm_mono {T : Type} {t : Table T} {p : Pfx} :
    ∀ (f g idx : Nat) (best res : Option Nat), f ≤ g →
      findLpm t p f idx best = some res →
      findLpm t p g idx best = some res := by
  intro f
  induction f with
  | zero =>
    intro g idx best res _ h
    simp [findLpm] at h
  | succ f ihf =>
    intro g idx best res hle h
    obtain ⟨g', rfl⟩ : ∃ g', g = g' + 1 := ⟨g - 1, by omega⟩
    cases hn : t[idx]? with
    | none => simp [findLpm, hn] at h
    | some n =>
      cases hd : get_direction t idx p with
      | none => simp [findLpm, hn, hd] at h
      | some d =>
        cases d with
        | Reached =>
          simp [findLpm, hn, hd] at h ⊢
          exact h
        | Missing =>
          simp [findLpm, hn, hd] at h ⊢
          exact h
        | Enter next b =>
          simp only [findLpm, hn, hd, Option.bind_eq_bind,
            Option.some_bind] at h ⊢
          exact ihf g' next (if n.value.isSome then some idx else best) res
            (by omega) h

theorem findLpm_det {T : Type} {t : Table T} {p : Pfx} {f g idx : Nat}
    {best res1 res2 : Option Nat} (h1 : findLpm t p f idx best = some res1)
    (h2 : findLpm t p g idx best = some res2) : res1 = res2 := by
  rcases Nat.le_total f g with h | h
  · have := findLpm_mono f g idx best res1 h h1
    rw [this] at h2
    exact Option.some_inj.mp h2
  · have := findLpm_mono g f idx best res2 h h2
    rw [this] at h1
    exact (Option.some_inj.mp h1).symm

/-- C6: on a well-formed arena, every successful run of `find_lpm` from the
root returns the value-bearing node whose key contains the query and admits
no stored, strictly more specific key that still contains the query; it
returns the empty result exactly when no stored key contains the query. -/
theorem c6_find_lpm {T : Type} [DecidableEq T] {t : Table T}
    (hinv : TableInv t) (q : Pfx) (f1 f2 : Nat) (r : Option Nat)
    (all : List (Pfx × T))
    (hrun : findLpm t q f1 0 none = some r)
    (hall : iterAux t f2 [0] = some all) :
    (∀ i, r = some i → ∃ (m : Node T) (x : T), t[i]? = some m ∧
      m.value = some x ∧ m.pfx <+: q ∧ (m.pfx, x) ∈ all ∧
      ¬∃ e ∈ all, e.1 <+: q ∧ m.pfx <+: e.1 ∧ e.1 ≠ m.pfx) ∧
    (r = none → ¬∃ e ∈ all, e.1 <+: q) := by
  obtain ⟨s, hdec, htwf, hidx, hroot⟩ := hinv
  have hforall := iterAux_forest (t := t) (sizeF [s]) [s] [0] rfl
    (List.Forall₂.cons hidx List.Forall₂.nil)
    (by intro u hu; rw [List.mem_singleton] at hu; exact hu ▸ hdec)
  obtain rfl : all = treeElems s := by
    have := iterAux_det hall hforall
    simpa using this
  have hq : rootPfxD s <+: q := by
    rw [hroot]
    exact ⟨q, rfl⟩
  obtain ⟨r0, hrun0, hP1, hP2⟩ := findLpm_spec (p := q) (q.length + 1) s 0
    none hdec htwf hidx hq (by omega)
  obtain rfl : r = r0 := findLpm_det hrun hrun0
  constructor
  · intro i hi
    rcases hP1 with hP1 | ⟨i', m, x, hri, hmi, hmv, hmp, hmem⟩
    · rw [hP1] at hi
      cases hi
    · obtain rfl : i' = i := by
        rw [hri] at hi
        exact Option.some_inj.mp hi
      refine ⟨m, x, hmi, hmv, hmp, hmem, ?_⟩
      rintro ⟨e, he, he1, he2, he3⟩
      obtain ⟨i2, m2, hr2, hm2, _, _, hk2⟩ :=
        hP2 e.1 e.2 (by simpa using he) he1
      obtain rfl : i' = i2 := by
        rw [hri] at hr2
        exact Option.some_inj.mp hr2
      obtain rfl : m = m2 := by
        rw [hmi] at hm2
        exact Option.some_inj.mp hm2
      exact he3 (hk2.eq_of_length (Nat.le_antisymm hk2.length_le
        he2.length_le))
  · intro hnone
    rintro ⟨e, he, he1⟩
    obtain ⟨i2, m2, hr2, _⟩ := hP2 e.1 e.2 (by simpa using he) he1
    rw [hnone] at hr2
    cases hr2

theorem c6_find_lpm_witness :
    ∃ (m : Node Nat) (x : Nat), c7Table[1]? = some m ∧ m.value = some x ∧
      m.pfx <+: [false, true] ∧
      (m.pfx, x) ∈ [(([] : Pfx), 9), (([false] : Pfx), 5), (([true] : Pfx), 7)] ∧
      ¬∃ e ∈ [(([] : Pfx), 9), (([false] : Pfx), 5), (([true] : Pfx), 7)],
        e.1 <+: [false, true] ∧ m.pfx <+: e.1 ∧ e.1 ≠ m.pfx :=
  (c6_find_lpm (t := c7Table) ⟨c7Tree, by decide, by decide, rfl, rfl⟩
    [false, true] 3 4 (some 1) [([], 9), ([false], 5), ([true], 7)]
    (by decide) (by decide)).1 1 rfl
